import Mathlib

/-!
# Verification of the `rewrap` comment-reflow engine

A shallow embedding of the Go package `wrap` from the `rewrap` repository
(files `wrap/wrap.go`, `wrap/process.go`, `wrap/language.go`, the segment
classifier, and `markdown.go`), together with theorems settling the frozen
claims about its specification.

Strings are modelled as lists of characters (`Str`).  Go's byte-oriented
string operations coincide with this model on the inputs considered here
because every comment marker and every concrete input in this file is
ASCII, and Go's `utf8.DecodeRuneInString`-based width computation counts
decoded code points, i.e. exactly the characters of `Str`.

The two foreign parsers used by the repository (`go/doc/comment` for Go doc
comments and `goldmark` for Markdown) are third-party code that is not part
of this repository; they are modelled as parameters (`Parsers`), so every
theorem below holds for an arbitrary behaviour of those parsers unless a
hypothesis restricts them.
-/

namespace Rewrap

/-- Strings as lists of characters. -/
abbrev Str := List Char

/-- The whitespace set of Go's `unicode.IsSpace` restricted to Latin-1
(space, tab, newline, vertical tab, form feed, carriage return, NEL and
NBSP); used by `strings.TrimSpace` and `strings.Fields`. -/
def isGoSpace (c : Char) : Bool :=
  c = ' ' || c = '\t' || c = '\n' || c = (Char.ofNat 11) || c = (Char.ofNat 12) ||
  c = '\r' || c = (Char.ofNat 0x85) || c = (Char.ofNat 0xA0)

/-- `strings.TrimLeft(s, " \t")`: drop leading spaces and tabs. -/
def trimLeftWsTab : Str → Str
  | [] => []
  | c :: rest => if c = ' ' || c = '\t' then trimLeftWsTab rest else c :: rest

/-- Drop leading Go whitespace (helper for `trimSpace`). -/
def trimLeftSpace : Str → Str
  | [] => []
  | c :: rest => if isGoSpace c then trimLeftSpace rest else c :: rest

/-- `strings.TrimSpace`: trim Go whitespace from both ends. -/
def trimSpace (s : Str) : Str :=
  ((trimLeftSpace s.reverse).reverse |> trimLeftSpace)

/-- `strings.TrimRight(s, " ")`: drop trailing spaces. -/
def trimRightSp (s : Str) : Str :=
  (trimLeftSpOnly s.reverse).reverse
where
  trimLeftSpOnly : Str → Str
    | [] => []
    | c :: rest => if c = ' ' then trimLeftSpOnly rest else c :: rest

/-- `strings.TrimRight(s, "\n")`: drop trailing newlines. -/
def trimRightNL (s : Str) : Str :=
  (trimLeftNLOnly s.reverse).reverse
where
  trimLeftNLOnly : Str → Str
    | [] => []
    | c :: rest => if c = '\n' then trimLeftNLOnly rest else c :: rest

/-- `strings.Split(s, "\n")`: split at every newline; the empty string
yields one empty piece. -/
def splitLines : Str → List Str
  | [] => [[]]
  | c :: rest =>
    match splitLines rest with
    | [] => []
    | s :: ss => if c = '\n' then [] :: s :: ss else (c :: s) :: ss

/-- `strings.Join(lines, "\n")`. -/
def joinLines (lines : List Str) : Str :=
  List.intercalate ['\n'] lines

/-- Line-ending normalization performed by `Source` and `processMarkdown`:
`strings.ReplaceAll(text, "\r\n", "\n")` followed by
`strings.ReplaceAll(text, "\r", "\n")`, i.e. every CRLF pair and every
remaining CR becomes a single LF. -/
def normalizeNewlines : Str → Str
  | [] => []
  | '\r' :: '\n' :: rest => '\n' :: normalizeNewlines rest
  | '\r' :: rest => '\n' :: normalizeNewlines rest
  | c :: rest => c :: normalizeNewlines rest

/-- `strings.Contains(hay, needle)`. -/
def strContains : Str → Str → Bool
  | [], needle => needle = []
  | c :: rest, needle => needle.isPrefixOf (c :: rest) || strContains rest needle

/-- The `before` component of `strings.Cut(s, sep)`: everything before the
first occurrence of `sep` (the whole string when `sep` does not occur). -/
def cutBefore : Str → Str → Str
  | [], _ => []
  | c :: rest, sep => if sep.isPrefixOf (c :: rest) then [] else c :: cutBefore rest sep

/-- `strings.TrimPrefix(s, pre)`. -/
def trimPre (s pre : Str) : Str :=
  if pre.isPrefixOf s then s.drop pre.length else s

/-- `strings.HasSuffix(s, "\n")`. -/
def endsWithNL (s : Str) : Bool :=
  s.getLast? = some '\n'

/-- Split at every Go whitespace character (helper for `fields`). -/
def splitWsAll : Str → List Str
  | [] => [[]]
  | c :: rest =>
    match splitWsAll rest with
    | [] => []
    | s :: ss => if isGoSpace c then [] :: s :: ss else (c :: s) :: ss

/-- `strings.Fields(s)`: the maximal whitespace-free runs of `s`. -/
def fields (s : Str) : List Str :=
  (splitWsAll s).filter (fun w => !w.isEmpty)

/-- `strings.Join(words, " ")`. -/
def joinSp (words : List Str) : Str :=
  List.intercalate [' '] words

/-- The loop of `displayWidth` (wrap.go lines 96-109): a tab advances the
column to the next multiple of `tabWidth` (`col += tabWidth - col%tabWidth`,
with Go's truncated remainder), any other decoded code point adds one. -/
def displayWidthAux (t : Int) : Str → Int → Int
  | [], col => col
  | c :: rest, col =>
    if c = '\t' then displayWidthAux t rest (col + (t - Int.tmod col t))
    else displayWidthAux t rest (col + 1)

/-- `displayWidth(s, tabWidth)` from wrap.go. -/
def displayWidth (s : Str) (t : Int) : Int :=
  displayWidthAux t s 0

/-- The accumulation loop of `splitParagraphs` (wrap.go lines 30-49):
blank lines flush the current paragraph, non-blank lines are trimmed and
collected; a paragraph is the space-join of its trimmed lines. -/
def splitParagraphsGo : List Str → List Str → List Str
  | [], current => if current.isEmpty then [] else [joinSp current]
  | l :: rest, current =>
    let trimmed := trimSpace l
    if trimmed.isEmpty then
      if current.isEmpty then splitParagraphsGo rest []
      else joinSp current :: splitParagraphsGo rest []
    else splitParagraphsGo rest (current ++ [trimmed])

/-- `splitParagraphs(text)` from wrap.go: paragraphs separated by blank
lines, each the space-join of its trimmed lines. -/
def splitParagraphs (text : Str) : List Str :=
  splitParagraphsGo (splitLines text) []

/-- The word loop of `wrapParagraph` (wrap.go lines 69-91).  State:
emitted `lines`, current line content `line`, its tracked width `lw`, the
active prefix `cp` and the `avail`able content width.  A word that does not
fit (`lw + 1 + wordWidth > avail` on a non-empty line) causes the current
line to be emitted and the prefix to switch to `contPre`. -/
def wrapParagraphGo (contPre : Str) (col t : Int) :
    List Str → List Str → Str → Int → Str → Int → List Str
  | [], lines, line, _, cp, _ =>
    if line.isEmpty then lines else lines ++ [cp ++ line]
  | w :: ws, lines, line, lw, cp, avail =>
    let ww := displayWidth w t
    if line.isEmpty then
      wrapParagraphGo contPre col t ws lines (line ++ w) (lw + ww) cp avail
    else if lw + 1 + ww > avail then
      let availC := max (col - displayWidth contPre t) 1
      wrapParagraphGo contPre col t ws (lines ++ [cp ++ line]) w ww contPre availC
    else
      wrapParagraphGo contPre col t ws lines (line ++ ' ' :: w) (lw + 1 + ww) cp avail

/-- `wrapParagraph(text, prefix, subsequentPrefix, columnWidth, tabWidth,
isFirst)` from wrap.go: greedy line breaking of the whitespace-split words
of `text`. -/
def wrapParagraph (text firstPre contPre : Str) (col t : Int) (isFirst : Bool) :
    List Str :=
  let words := fields text
  if words.isEmpty then []
  else
    let cp := if isFirst then firstPre else contPre
    let avail := max (col - displayWidth cp t) 1
    wrapParagraphGo contPre col t words [] [] 0 cp avail

/-- `wrapText(text, prefix, subsequentPrefix, columnWidth, tabWidth)` from
wrap.go: empty text yields the prefix alone; otherwise each paragraph is
wrapped, with a separator line (the continuation prefix trimmed of trailing
spaces) between consecutive paragraphs. -/
def wrapText (text firstPre contPre : Str) (col t : Int) : List Str :=
  if text.isEmpty then [firstPre]
  else
    match splitParagraphs text with
    | [] => []
    | p :: ps =>
      wrapParagraph p firstPre contPre col t true ++
      (ps.flatMap fun para =>
        trimRightSp contPre :: wrapParagraph para firstPre contPre col t false)

/-- `Language` from language.go.  (`blockPre` is the field named
`BlockPrefix` in the source.) -/
structure Language where
  name : Str
  extensions : List Str
  lineMarkers : List Str
  blockStart : List Str
  blockEnd : List Str
  blockPre : Str
  directives : List Str
deriving DecidableEq, Repr

/-- The `go` entry of the `languages` registry in language.go. -/
def goLang : Language :=
  { name := "go".toList, extensions := [".go".toList],
    lineMarkers := ["//".toList], blockStart := ["/*".toList],
    blockEnd := ["*/".toList], blockPre := [],
    directives := ["go:".toList, "line ".toList, "export ".toList, "nolint".toList] }

/-- The `python` entry of the `languages` registry in language.go. -/
def pythonLang : Language :=
  { name := "python".toList, extensions := [".py".toList],
    lineMarkers := ["#".toList], blockStart := [], blockEnd := [],
    blockPre := [], directives := [] }

/-- The `c` entry of the `languages` registry in language.go. -/
def cLang : Language :=
  { name := "c".toList, extensions := [".c".toList, ".h".toList],
    lineMarkers := ["//".toList], blockStart := ["/*".toList],
    blockEnd := ["*/".toList], blockPre := [], directives := [] }

/-- The `java` entry of the `languages` registry in language.go. -/
def javaLang : Language :=
  { name := "java".toList, extensions := [".java".toList],
    lineMarkers := ["//".toList], blockStart := ["/*".toList],
    blockEnd := ["*/".toList], blockPre := " * ".toList, directives := [] }

/-- The `markdown` entry of the `languages` registry in language.go. -/
def markdownLang : Language :=
  { name := "markdown".toList, extensions := [".md".toList, ".markdown".toList],
    lineMarkers := [], blockStart := [], blockEnd := [], blockPre := [],
    directives := [] }

/-- `segmentType` from the classifier: code, line-comment block, or block
comment. -/
inductive segmentType where
  | code
  | comment
  | block
deriving DecidableEq, Repr

/-- `segment` from the classifier: a contiguous block of lines with its
classification, common indent, and resolved marker. -/
structure segment where
  typ : segmentType
  lines : List Str
  indent : Str
  marker : Str
deriving DecidableEq, Repr

/-- The marker loop of `matchLineComment`: the first configured token that
is a prefix of the stripped line (Go returns from inside the loop at the
first prefix match). -/
def findMarker (markers : List Str) (trimmed : Str) : Option Str :=
  match markers with
  | [] => none
  | m :: ms => if m.isPrefixOf trimmed then some m else findMarker ms trimmed

/-- `matchLineComment(line, lang)`: the indent and marker of a line-comment
line, or `none` for non-comments and for directive lines.  The marker
includes one trailing space when the source line has one right after the
token. -/
def matchLineComment (line : Str) (lang : Language) : Option (Str × Str) :=
  let trimmed := trimLeftWsTab line
  if trimmed.isEmpty then none
  else
    let indent := line.take (line.length - trimmed.length)
    match findMarker lang.lineMarkers trimmed with
    | none => none
    | some m =>
      let rest := trimmed.drop m.length
      if lang.directives.any (fun d => d.isPrefixOf rest) then none
      else
        let marker := if rest.head? = some ' ' then m ++ [' '] else m
        some (indent, marker)

/-- The extension loop of `tryLineCommentBlock`: consume consecutive lines
matching the same indent and the same base marker (trailing space
stripped), remembering the longest marker variant seen.  Returns the run,
the resolved marker, and the remaining lines. -/
def extendLineRun (lang : Language) (indent base : Str) (marker : Str) :
    List Str → List Str × Str × List Str
  | [] => ([], marker, [])
  | l :: rest =>
    match matchLineComment l lang with
    | some (ind, mk) =>
      if ind = indent && trimRightSp mk = base then
        let marker1 := if mk.length > marker.length then mk else marker
        let (run, finalMk, rem) := extendLineRun lang indent base marker1 rest
        (l :: run, finalMk, rem)
      else ([], marker, l :: rest)
    | none => ([], marker, l :: rest)

/-- `tryLineCommentBlock(lines, i, lang)` in suffix form: the comment
segment starting at the head of the list together with the remaining
suffix, or `none` when the head is not a line comment. -/
def tryLineCommentBlock (lang : Language) (ls : List Str) :
    Option (segment × List Str) :=
  match ls with
  | [] => none
  | l :: _ =>
    match matchLineComment l lang with
    | none => none
    | some (indent, marker) =>
      let base := trimRightSp marker
      let (run, finalMk, rem) := extendLineRun lang indent base marker ls
      some ({ typ := .comment, lines := run, indent := indent, marker := finalMk }, rem)

/-- The forward scan of `tryBlockComment`: split at the first line
containing the end token (inclusive), or `none` when no line contains
it. -/
def blockScan (endTok : Str) : List Str → Option (List Str × List Str)
  | [] => none
  | l :: rest =>
    if strContains l endTok then some ([l], rest)
    else
      match blockScan endTok rest with
      | some (covered, rem) => some (l :: covered, rem)
      | none => none

/-- `tryBlockComment(lines, i, lang)` in suffix form.  When the head line
(after stripping indent) starts with a block-start token, scan to the line
containing `BlockEnd[0]` and return that inclusive range as a block
segment; an unterminated block degrades to a code segment over all the
remaining lines.  Go treats an empty matched start token as no match. -/
def tryBlockComment (lang : Language) (ls : List Str) :
    Option (segment × List Str) :=
  match ls with
  | [] => none
  | l :: _ =>
    let trimmed := trimLeftWsTab l
    let indent := l.take (l.length - trimmed.length)
    match findMarker lang.blockStart trimmed with
    | none => none
    | some startMk =>
      if startMk.isEmpty then none
      else
        let endTok := lang.blockEnd.headD []
        match blockScan endTok ls with
        | some (covered, rem) =>
          some ({ typ := .block, lines := covered, indent := indent, marker := [] }, rem)
        | none =>
          some ({ typ := .code, lines := ls, indent := [], marker := [] }, [])

/-- The break test of the code-accumulation loop in `parseSegments`: the
suffix starts a line-comment run or (when block tokens exist) a block
comment. -/
def isSegStart (lango : Option Language) (ls : List Str) : Bool :=
  match lango with
  | none => false
  | some lang =>
    (tryLineCommentBlock lang ls).isSome ||
    (!lang.blockStart.isEmpty && (tryBlockComment lang ls).isSome)

/-- The code-accumulation loop of `parseSegments`: consume lines until one
starts a comment segment. -/
def takeCode (lango : Option Language) : List Str → List Str × List Str
  | [] => ([], [])
  | l :: rest =>
    if isSegStart lango (l :: rest) then ([], l :: rest)
    else
      let (code, rem) := takeCode lango rest
      (l :: code, rem)

theorem extendLineRun_append (lang : Language) (indent base : Str) :
    ∀ (ls : List Str) (marker : Str),
      (extendLineRun lang indent base marker ls).1 ++
        (extendLineRun lang indent base marker ls).2.2 = ls := by
  intro ls
  induction ls with
  | nil => intro marker; simp [extendLineRun]
  | cons l rest ih =>
    intro marker
    simp only [extendLineRun]
    cases h : matchLineComment l lang with
    | none => simp
    | some p =>
      cases p with
      | mk ind mk =>
        by_cases hc : ind = indent && trimRightSp mk = base
        · simp only [hc, if_pos]
          have := ih (if mk.length > marker.length then mk else marker)
          simp_all
        · simp [hc]

theorem blockScan_append (endTok : Str) :
    ∀ (ls covered rem : List Str),
      blockScan endTok ls = some (covered, rem) → covered ++ rem = ls := by
  intro ls
  induction ls with
  | nil => intro covered rem h; simp [blockScan] at h
  | cons l rest ih =>
    intro covered rem h
    simp only [blockScan] at h
    by_cases hc : strContains l endTok
    · simp [hc] at h
      obtain ⟨h1, h2⟩ := h
      subst h1; subst h2; simp
    · simp [hc] at h
      cases hs : blockScan endTok rest with
      | none => simp [hs] at h
      | some p =>
        cases p with
        | mk c r =>
          simp [hs] at h
          obtain ⟨h1, h2⟩ := h
          subst h1; subst h2
          simp [ih c r hs]

theorem takeCode_append (lango : Option Language) :
    ∀ (ls : List Str), (takeCode lango ls).1 ++ (takeCode lango ls).2 = ls := by
  intro ls
  induction ls with
  | nil => simp [takeCode]
  | cons l rest ih =>
    simp only [takeCode]
    by_cases hc : isSegStart lango (l :: rest)
    · simp [hc]
    · simp [hc, ih]

theorem tryLineCommentBlock_append (lang : Language) (ls : List Str)
    (seg : segment) (rem : List Str)
    (h : tryLineCommentBlock lang ls = some (seg, rem)) :
    seg.lines ++ rem = ls := by
  match ls with
  | [] => simp [tryLineCommentBlock] at h
  | l :: rest =>
    simp only [tryLineCommentBlock] at h
    cases hm : matchLineComment l lang with
    | none => simp [hm] at h
    | some p =>
      cases p with
      | mk indent marker =>
        simp only [hm] at h
        have happ := extendLineRun_append lang indent (trimRightSp marker)
          (l :: rest) marker
        cases h1 : extendLineRun lang indent (trimRightSp marker) marker (l :: rest) with
        | mk run p2 =>
          cases p2 with
          | mk finalMk rem2 =>
            simp [h1] at h happ
            obtain ⟨h2, h3⟩ := h
            rw [← h2, ← h3]
            exact happ

theorem tryBlockComment_append (lang : Language) (ls : List Str)
    (seg : segment) (rem : List Str)
    (h : tryBlockComment lang ls = some (seg, rem)) :
    seg.lines ++ rem = ls := by
  match ls with
  | [] => simp [tryBlockComment] at h
  | l :: rest =>
    simp only [tryBlockComment] at h
    split at h
    · exact absurd h (by simp)
    · split at h
      · exact absurd h (by simp)
      · split at h
        · rename_i covered rem2 hs
          simp only [Option.some.injEq, Prod.mk.injEq] at h
          obtain ⟨h1, h2⟩ := h
          rw [← h1, ← h2]
          exact blockScan_append _ _ _ _ hs
        · simp only [Option.some.injEq, Prod.mk.injEq] at h
          obtain ⟨h1, h2⟩ := h
          rw [← h1, ← h2]
          simp

theorem tryLineCommentBlock_nonempty (lang : Language) (ls : List Str)
    (seg : segment) (rem : List Str)
    (h : tryLineCommentBlock lang ls = some (seg, rem)) :
    seg.lines ≠ [] := by
  match ls with
  | [] => simp [tryLineCommentBlock] at h
  | l :: rest =>
    simp only [tryLineCommentBlock] at h
    cases hm : matchLineComment l lang with
    | none => simp [hm] at h
    | some p =>
      cases p with
      | mk indent marker =>
        simp only [hm] at h
        simp only [extendLineRun, hm] at h
        cases h1 : extendLineRun lang indent (trimRightSp marker)
            (if marker.length > marker.length then marker else marker) rest with
        | mk run p2 =>
          cases p2 with
          | mk finalMk rem2 =>
            simp [h1] at h
            obtain ⟨h2, _⟩ := h
            rw [← h2]
            simp

theorem blockScan_covered_nonempty (endTok : Str) :
    ∀ (ls covered rem : List Str),
      blockScan endTok ls = some (covered, rem) → covered ≠ [] := by
  intro ls
  induction ls with
  | nil => intro covered rem h; simp [blockScan] at h
  | cons l rest ih =>
    intro covered rem h
    simp only [blockScan] at h
    by_cases hc : strContains l endTok
    · simp [hc] at h
      obtain ⟨h1, _⟩ := h
      rw [← h1]; simp
    · simp [hc] at h
      cases hs : blockScan endTok rest with
      | none => simp [hs] at h
      | some p =>
        cases p with
        | mk c r =>
          simp [hs] at h
          obtain ⟨h1, _⟩ := h
          rw [← h1]; simp

theorem tryBlockComment_nonempty (lang : Language) (ls : List Str)
    (seg : segment) (rem : List Str) (hne : ls ≠ [])
    (h : tryBlockComment lang ls = some (seg, rem)) :
    seg.lines ≠ [] := by
  match ls with
  | [] => exact absurd rfl hne
  | l :: rest =>
    simp only [tryBlockComment] at h
    split at h
    · exact absurd h (by simp)
    · split at h
      · exact absurd h (by simp)
      · split at h
        · rename_i covered rem2 hs
          simp only [Option.some.injEq, Prod.mk.injEq] at h
          obtain ⟨h1, _⟩ := h
          rw [← h1]
          exact blockScan_covered_nonempty _ _ _ _ hs
        · simp only [Option.some.injEq, Prod.mk.injEq] at h
          obtain ⟨h1, _⟩ := h
          rw [← h1]
          simp

theorem append_ne_nil_length_lt {a b ls : List Str} (happ : a ++ b = ls)
    (hne : a ≠ []) : b.length < ls.length := by
  subst happ
  cases a with
  | nil => exact absurd rfl hne
  | cons x xs => simp [List.length_append]; omega

theorem takeCode_rem_length (lango : Option Language) (ls : List Str) :
    (takeCode lango ls).2.length ≤ ls.length := by
  have h := takeCode_append lango ls
  cases h1 : takeCode lango ls with
  | mk code rem =>
    rw [h1] at h
    simp only at h ⊢
    rw [← h]
    simp [List.length_append]

/-- One step of `parseSegments`: take a block comment, a line-comment run,
or a maximal code run from the front of the suffix. -/
def parseSegmentsFuel (lango : Option Language) : Nat → List Str → List segment
  | _, [] => []
  | 0, _ => []
  | fuel + 1, l :: rest =>
    match lango with
    | some lang =>
      match (if !lang.blockStart.isEmpty then tryBlockComment lang (l :: rest) else none) with
      | some (seg, rem) => seg :: parseSegmentsFuel lango fuel rem
      | none =>
        match (if !lang.lineMarkers.isEmpty then tryLineCommentBlock lang (l :: rest) else none) with
        | some (seg, rem) => seg :: parseSegmentsFuel lango fuel rem
        | none =>
          let p := takeCode lango rest
          { typ := .code, lines := l :: p.1, indent := [], marker := [] } ::
            parseSegmentsFuel lango fuel p.2
    | none =>
      let p := takeCode lango rest
      { typ := .code, lines := l :: p.1, indent := [], marker := [] } ::
        parseSegmentsFuel lango fuel p.2

/-- `parseSegments(lines, lang)` in suffix form: repeatedly take a block
comment, a line-comment run, or a maximal code run from the front.  A `nil`
language yields a single code segment over everything (no break test ever
fires).  Every step consumes at least one line, so `ls.length` steps always
suffice (`parseSegmentsFuel_congr` below); the fuel only makes the
recursion structural. -/
def parseSegments (lango : Option Language) (ls : List Str) : List segment :=
  parseSegmentsFuel lango ls.length ls

theorem parseSegmentsFuel_congr (lango : Option Language) :
    ∀ (f1 : Nat) (ls : List Str) (f2 : Nat), ls.length ≤ f1 → ls.length ≤ f2 →
      parseSegmentsFuel lango f1 ls = parseSegmentsFuel lango f2 ls := by
  intro f1
  induction f1 with
  | zero =>
    intro ls f2 h1 _
    match ls with
    | [] => cases f2 <;> rfl
    | l :: rest => simp at h1
  | succ f ih =>
    intro ls f2 h1 h2
    match ls with
    | [] => cases f2 <;> rfl
    | l :: rest =>
      match f2 with
      | 0 => simp at h2
      | f3 + 1 =>
        simp only [parseSegmentsFuel]
        match lango with
        | some lang =>
          simp only
          cases hb : (if !lang.blockStart.isEmpty then tryBlockComment lang (l :: rest) else none) with
          | some p =>
            cases p with
            | mk seg rem =>
              have hb2 : tryBlockComment lang (l :: rest) = some (seg, rem) := by
                by_cases h : (!lang.blockStart.isEmpty) = true
                · simpa [h] using hb
                · simp [h] at hb
              have hlt : rem.length < (l :: rest).length :=
                append_ne_nil_length_lt (tryBlockComment_append _ _ _ _ hb2)
                  (tryBlockComment_nonempty _ _ _ _ (by simp) hb2)
              simp only [List.length_cons] at h1 h2 hlt
              simp only [ih rem f3 (by omega) (by omega)]
          | none =>
            cases hl : (if !lang.lineMarkers.isEmpty then tryLineCommentBlock lang (l :: rest) else none) with
            | some p =>
              cases p with
              | mk seg rem =>
                have hl2 : tryLineCommentBlock lang (l :: rest) = some (seg, rem) := by
                  by_cases h : (!lang.lineMarkers.isEmpty) = true
                  · simpa [h] using hl
                  · simp [h] at hl
                have hlt : rem.length < (l :: rest).length :=
                  append_ne_nil_length_lt (tryLineCommentBlock_append _ _ _ _ hl2)
                    (tryLineCommentBlock_nonempty _ _ _ _ hl2)
                simp only [List.length_cons] at h1 h2 hlt
                simp only [ih rem f3 (by omega) (by omega)]
            | none =>
              have hle := takeCode_rem_length (some lang) rest
              simp only [List.length_cons] at h1 h2
              simp only [ih (takeCode (some lang) rest).2 f3 (by omega) (by omega)]
        | none =>
          simp only
          have hle := takeCode_rem_length none rest
          simp only [List.length_cons] at h1 h2
          simp only [ih (takeCode none rest).2 f3 (by omega) (by omega)]

theorem parseSegments_cons (lango : Option Language) (l : Str) (rest : List Str) :
    parseSegments lango (l :: rest) =
      (match lango with
      | some lang =>
        match (if !lang.blockStart.isEmpty then tryBlockComment lang (l :: rest) else none) with
        | some (seg, rem) => seg :: parseSegments lango rem
        | none =>
          match (if !lang.lineMarkers.isEmpty then tryLineCommentBlock lang (l :: rest) else none) with
          | some (seg, rem) => seg :: parseSegments lango rem
          | none =>
            { typ := .code, lines := l :: (takeCode lango rest).1, indent := [],
              marker := [] } :: parseSegments lango (takeCode lango rest).2
      | none =>
        { typ := .code, lines := l :: (takeCode lango rest).1, indent := [],
          marker := [] } :: parseSegments lango (takeCode lango rest).2) := by
  show parseSegmentsFuel lango (rest.length + 1) (l :: rest) = _
  simp only [parseSegmentsFuel]
  match lango with
  | some lang =>
    simp only
    cases hb : (if !lang.blockStart.isEmpty then tryBlockComment lang (l :: rest) else none) with
    | some p =>
      cases p with
      | mk seg rem =>
        have hb2 : tryBlockComment lang (l :: rest) = some (seg, rem) := by
          by_cases h : (!lang.blockStart.isEmpty) = true
          · simpa [h] using hb
          · simp [h] at hb
        have hlt : rem.length < (l :: rest).length :=
          append_ne_nil_length_lt (tryBlockComment_append _ _ _ _ hb2)
            (tryBlockComment_nonempty _ _ _ _ (by simp) hb2)
        simp only [List.length_cons] at hlt
        simp only [parseSegments]
        rw [parseSegmentsFuel_congr _ rest.length rem rem.length (by omega) (by omega)]
    | none =>
      cases hl : (if !lang.lineMarkers.isEmpty then tryLineCommentBlock lang (l :: rest) else none) with
      | some p =>
        cases p with
        | mk seg rem =>
          have hl2 : tryLineCommentBlock lang (l :: rest) = some (seg, rem) := by
            by_cases h : (!lang.lineMarkers.isEmpty) = true
            · simpa [h] using hl
            · simp [h] at hl
          have hlt : rem.length < (l :: rest).length :=
            append_ne_nil_length_lt (tryLineCommentBlock_append _ _ _ _ hl2)
              (tryLineCommentBlock_nonempty _ _ _ _ hl2)
          simp only [List.length_cons] at hlt
          simp only [parseSegments]
          rw [parseSegmentsFuel_congr _ rest.length rem rem.length (by omega) (by omega)]
      | none =>
        have hle := takeCode_rem_length (some lang) rest
        simp only [parseSegments]
        rw [parseSegmentsFuel_congr _ rest.length (takeCode (some lang) rest).2
          (takeCode (some lang) rest).2.length (by omega) (by omega)]
  | none =>
    simp only
    have hle := takeCode_rem_length none rest
    simp only [parseSegments]
    rw [parseSegmentsFuel_congr _ rest.length (takeCode none rest).2
      (takeCode none rest).2.length (by omega) (by omega)]

/-- `isDecorationLine(content)`: the trimmed content is non-empty and
consists only of the characters `= - * # ~ + _ .`. -/
def isDecorationChar (c : Char) : Bool :=
  c = '=' || c = '-' || c = '*' || c = '#' || c = '~' || c = '+' || c = '_' || c = '.'

/-- `isDecorationLine` from the classifier file. -/
def isDecorationLine (content : Str) : Bool :=
  let trimmed := trimSpace content
  !trimmed.isEmpty && trimmed.all isDecorationChar

/-- Inline node of `go/doc/comment` (`comment.Text`): plain text, italic
text, a link, or a doc link. -/
inductive DocInline where
  | plain (s : Str)
  | italic (s : Str)
  | link (ts : List DocInline)
  | docLink (ts : List DocInline)
deriving Repr

/-- Block node of `go/doc/comment` (`comment.Block`).  A list item is a
pair of its numeric label (`ListItem.Number`, empty for bullets) and its
content blocks. -/
inductive DocBlock where
  | para (ts : List DocInline)
  | codeBlock (text : Str)
  | heading (ts : List DocInline)
  | list (forceBlankBefore forceBlankBetween : Bool)
      (items : List (Str × List DocBlock))

/-- `docInlineText(texts)` from process.go: flatten inline nodes to text,
links flatten to their inner text, doc links are wrapped in literal
brackets. -/
def docInlineText : List DocInline → Str
  | [] => []
  | .plain s :: rest => s ++ docInlineText rest
  | .italic s :: rest => s ++ docInlineText rest
  | .link ts :: rest => docInlineText ts ++ docInlineText rest
  | .docLink ts :: rest => '[' :: (docInlineText ts ++ [']'] ++ docInlineText rest)

/-- The two external parsers consumed by the repository.  `goParse` stands
for `comment.Parser.Parse` from `go/doc/comment` (the `doc.Content` block
list); `mdParas` stands for the goldmark AST walk of `processMarkdown`
(markdown.go lines 26-47) that yields the half-open line ranges of the
top-level paragraph nodes.  Both are third-party code, so they are kept
abstract; theorems hold for every instantiation. -/
structure Parsers where
  goParse : Str → List DocBlock
  mdParas : Str → List (Nat × Nat)

/-- A trivial instantiation of the external parsers, used to evaluate the
engine on inputs whose processing never consults them. -/
def defaultParsers : Parsers :=
  { goParse := fun _ => [], mdParas := fun _ => [] }

/-- The inner block loop of `renderDocList` (process.go lines 237-249):
blocks of one list item; a bare-marker separator precedes every block but
the first, and only paragraphs render (the first with the bullet line
prefix, later ones with the continuation prefix). -/
def renderDocItemBlocks (firstP contP bareMarker : Str) (col t : Int) :
    List DocBlock → Bool → List Str
  | [], _ => []
  | b :: rest, isFirstBlock =>
    let sep : List Str := if isFirstBlock then [] else [bareMarker]
    let rendered : List Str :=
      match b with
      | .para ts =>
        if isFirstBlock then wrapText (docInlineText ts) firstP contP col t
        else wrapText (docInlineText ts) contP contP col t
      | _ => []
    sep ++ rendered ++ renderDocItemBlocks firstP contP bareMarker col t rest false

/-- The item loop of `renderDocList` (process.go lines 222-252): numbered
items get an `N. ` bullet, others `- `; the continuation prefix is padded
to the bullet's length; `ForceBlankBetween` inserts a bare-marker line
between items. -/
def renderDocListGo (fbw : Bool) (pre bareMarker : Str) (col t : Int) :
    List (Str × List DocBlock) → Bool → List Str
  | [], _ => []
  | (number, content) :: rest, isFirstItem =>
    let sep : List Str := if !isFirstItem && fbw then [bareMarker] else []
    let bullet := if !number.isEmpty then number ++ ". ".toList else "- ".toList
    let firstP := pre ++ "  ".toList ++ bullet
    let contP := pre ++ "  ".toList ++ List.replicate bullet.length ' '
    sep ++ renderDocItemBlocks firstP contP bareMarker col t content true ++
      renderDocListGo fbw pre bareMarker col t rest false

/-- The separator test of `rewrapGoDocComment` (process.go lines 160-171):
a bare-marker separator precedes every block except a list that directly
follows a paragraph with `ForceBlankBefore` unset. -/
def docSepNeeded : DocBlock → DocBlock → Bool
  | .list fbb _ _, .para _ => fbb
  | _, _ => true

/-- The block loop of `rewrapGoDocComment` (process.go lines 159-191),
carrying the previous block. -/
def renderDocBlocks (pre bareMarker : Str) (col t : Int) :
    List DocBlock → Option DocBlock → List Str
  | [], _ => []
  | b :: rest, prev =>
    let sep : List Str :=
      match prev with
      | none => []
      | some pb => if docSepNeeded b pb then [bareMarker] else []
    let rendered : List Str :=
      match b with
      | .para ts => wrapText (docInlineText ts) pre pre col t
      | .codeBlock text =>
        (splitLines (trimRightNL text)).map fun line =>
          if line.isEmpty then bareMarker else bareMarker ++ '\t' :: line
      | .heading ts => [pre ++ "# ".toList ++ docInlineText ts]
      | .list _ fbw items => renderDocListGo fbw pre bareMarker col t items true
    sep ++ rendered ++ renderDocBlocks pre bareMarker col t rest (some b)

/-- Count the leading all-blank lines of a line list. -/
def countLeadingBlanks : List Str → Nat
  | [] => 0
  | l :: rest => if (trimSpace l).isEmpty then countLeadingBlanks rest + 1 else 0

/-- `rewrapGoDocComment(textLines, indent, column, tabWidth)` from
process.go: parse the joined text with the doc-comment parser, reproduce
the leading/trailing blank-line counts as bare-marker lines, and render
the parsed blocks. -/
def rewrapGoDocComment (P : Parsers) (textLines : List Str) (indent : Str)
    (col t : Int) : List Str :=
  let pre := indent ++ "// ".toList
  let bareMarker := indent ++ "//".toList
  let leadingBlanks := countLeadingBlanks textLines
  let trailingBlanks := countLeadingBlanks (textLines.drop leadingBlanks).reverse
  let docText := joinLines textLines
  let doc := P.goParse docText
  if doc.isEmpty then List.replicate (leadingBlanks + trailingBlanks) bareMarker
  else
    List.replicate leadingBlanks bareMarker ++
    renderDocBlocks pre bareMarker col t doc none ++
    List.replicate trailingBlanks bareMarker

/-- The `flush` closure of `rewrapLineComments` (process.go lines 71-101):
render the pending run, through the Go doc-comment renderer for `go` line
comments with a `//` marker, and through `wrapText` with prefix
`indent+marker` otherwise.  `pending` pairs each raw line with its
marker-stripped content. -/
def rlcFlush (P : Parsers) (lang : Language) (seg : segment) (col t : Int)
    (pending : List (Str × Str)) : List Str :=
  if pending.isEmpty then []
  else if lang.name = "go".toList && trimSpace seg.marker = "//".toList then
    let textLines := pending.map fun pr =>
      let stripped := trimLeftWsTab pr.1
      if ("// ".toList).isPrefixOf stripped then stripped.drop 3
      else if ("//\t".toList).isPrefixOf stripped then stripped.drop 2
      else []
    rewrapGoDocComment P textLines seg.indent col t
  else
    let textLines := pending.map (fun pr => pr.2)
    let joined := joinLines textLines
    let pre := seg.indent ++ seg.marker
    wrapText joined pre pre col t

/-- The main loop of `rewrapLineComments` (process.go lines 102-112):
decoration lines flush the pending run and are emitted as
`indent+marker+content`; other lines join the pending run. -/
def rlcGo (P : Parsers) (lang : Language) (seg : segment) (col t : Int) :
    List (Str × Str) → List (Str × Str) → List Str
  | pending, [] => rlcFlush P lang seg col t pending
  | pending, (raw, content) :: rest =>
    if isDecorationLine content then
      rlcFlush P lang seg col t pending ++
        ((seg.indent ++ seg.marker ++ content) :: rlcGo P lang seg col t [] rest)
    else rlcGo P lang seg col t (pending ++ [(raw, content)]) rest

/-- `rewrapLineComments(seg, lang, column, tabWidth)` from process.go.
Each line's content is the stripped line with `len(marker)` characters
removed; shorter (marker-only) lines count as blank. -/
def rewrapLineComments (P : Parsers) (seg : segment) (lang : Language)
    (col t : Int) : List Str :=
  let lines := seg.lines.map fun line =>
    let stripped := trimLeftWsTab line
    if seg.marker.length ≤ stripped.length then (line, stripped.drop seg.marker.length)
    else (line, ([] : Str))
  rlcGo P lang seg col t [] lines

/-- The content-extraction loop of `rewrapBlockComment` (process.go lines
270-301): the first line loses the start marker, a line containing the end
marker loses everything from the end marker on (plus a leading `*`), and
middle lines lose a leading `"* "` or `"*"`. -/
def blockContent (startMk endMk : Str) : List Str → Bool → List Str
  | [], _ => []
  | line :: rest, isFirst =>
    let stripped := trimLeftWsTab line
    if isFirst then
      let after := trimSpace (trimPre stripped startMk)
      (if after.isEmpty then [] else [after]) ++ blockContent startMk endMk rest false
    else if strContains line endMk then
      let before0 := trimSpace (cutBefore stripped endMk)
      let before := trimSpace (trimPre before0 "*".toList)
      (if before.isEmpty then [] else [before]) ++ blockContent startMk endMk rest false
    else
      let content0 := trimPre stripped "* ".toList
      let content := if content0 = stripped then trimPre stripped "*".toList else content0
      content :: blockContent startMk endMk rest false

/-- `rewrapBlockComment(seg, lang, column, tabWidth)` from process.go:
single-line block comments pass through; otherwise the inner text is
wrapped with `indent + blockPrefix` and re-enclosed in the start marker
and the one-space-indented end marker. -/
def rewrapBlockComment (seg : segment) (lang : Language) (col t : Int) :
    List Str :=
  match seg.lines with
  | [] => []
  | [l] => [l]
  | _ =>
    let startMk := lang.blockStart.headD []
    let endMk := lang.blockEnd.headD []
    let textLines := blockContent startMk endMk seg.lines true
    let blockP := if lang.blockPre.isEmpty then " * ".toList else lang.blockPre
    let innerPre := seg.indent ++ blockP
    let joined := joinLines textLines
    let wrapped := wrapText joined innerPre innerPre col t
    (seg.indent ++ startMk) :: (wrapped ++ [seg.indent ++ ' ' :: endMk])

/-- `wrapPlainText(lines, column, tabWidth)` from process.go: wrap the
joined text with empty prefixes; append a trailing newline when the last
input line is empty and the result does not already end in one. -/
def wrapPlainText (lines : List Str) (col t : Int) : Str :=
  let joined := joinLines lines
  let wrapped := wrapText joined [] [] col t
  let result := joinLines wrapped
  if !lines.isEmpty && lines.getLast? = some [] && !(endsWithNL result) then
    result ++ ['\n']
  else result

/-- The output-assembly loop of `processMarkdown` (markdown.go lines
50-69): lines before each paragraph range pass through, the range itself
is rewrapped with empty prefixes, and the remaining lines pass through. -/
def mdGo (lines : List Str) (col t : Int) : List (Nat × Nat) → Nat → List Str
  | [], i => lines.drop i
  | (s, e) :: ps, i =>
    let before := (lines.drop i).take (s - i)
    let paraLines := (lines.drop s).take (e - s)
    let joined := joinLines paraLines
    before ++ wrapText joined [] [] col t ++ mdGo lines col t ps e

/-- `processMarkdown(src, column, tabWidth)` from markdown.go, with the
goldmark paragraph ranges supplied by the `Parsers` parameter. -/
def processMarkdown (P : Parsers) (src : Str) (col t : Int) : Str :=
  let normalized := normalizeNewlines src
  let lines := splitLines normalized
  let ranges := P.mdParas normalized
  let out := mdGo lines col t ranges 0
  let result := joinLines out
  if !normalized.isEmpty && normalized.getLast? = some '\n' && !(endsWithNL result) then
    result ++ ['\n']
  else result

/-- The segment dispatch of `Source` (process.go lines 30-39): code lines
verbatim, line-comment segments through `rewrapLineComments`, block
segments through `rewrapBlockComment`. -/
def renderSegment (P : Parsers) (lang : Language) (col t : Int)
    (seg : segment) : List Str :=
  match seg.typ with
  | .code => seg.lines
  | .comment => rewrapLineComments P seg lang col t
  | .block => rewrapBlockComment seg lang col t

/-- `Source(src, lang, column, tabWidth)` from process.go: normalize line
endings, dispatch on mode (plain text for an absent language, Markdown for
the `markdown` language, segmented source otherwise), join the emitted
lines, and restore the trailing newline when the original ended in one. -/
def Source (P : Parsers) (src : Str) (lango : Option Language) (col t : Int) :
    Str :=
  let text := normalizeNewlines src
  let lines := splitLines text
  match lango with
  | none => wrapPlainText lines col t
  | some lang =>
    if lang.name = "markdown".toList then processMarkdown P src col t
    else
      let segs := parseSegments lango lines
      let out := segs.flatMap (renderSegment P lang col t)
      let result := joinLines out
      if !src.isEmpty && src.getLast? = some '\n' && !(endsWithNL result) then
        result ++ ['\n']
      else result

theorem parseSegments_block_eq (lang : Language) (l : Str) (rest : List Str)
    (seg : segment) (rem : List Str)
    (hb : (if !lang.blockStart.isEmpty then tryBlockComment lang (l :: rest) else none) =
      some (seg, rem)) :
    parseSegments (some lang) (l :: rest) = seg :: parseSegments (some lang) rem := by
  rw [parseSegments_cons]
  simp only [hb]

theorem parseSegments_line_eq (lang : Language) (l : Str) (rest : List Str)
    (seg : segment) (rem : List Str)
    (hb : (if !lang.blockStart.isEmpty then tryBlockComment lang (l :: rest) else none) = none)
    (hl : (if !lang.lineMarkers.isEmpty then tryLineCommentBlock lang (l :: rest) else none) =
      some (seg, rem)) :
    parseSegments (some lang) (l :: rest) = seg :: parseSegments (some lang) rem := by
  rw [parseSegments_cons]
  simp only [hb, hl]

theorem parseSegments_code_eq (lang : Language) (l : Str) (rest : List Str)
    (hb : (if !lang.blockStart.isEmpty then tryBlockComment lang (l :: rest) else none) = none)
    (hl : (if !lang.lineMarkers.isEmpty then tryLineCommentBlock lang (l :: rest) else none) =
      none) :
    parseSegments (some lang) (l :: rest) =
      { typ := .code, lines := l :: (takeCode (some lang) rest).1, indent := [], marker := [] } ::
        parseSegments (some lang) (takeCode (some lang) rest).2 := by
  rw [parseSegments_cons]
  simp only [hb, hl]

theorem parseSegments_none_eq (l : Str) (rest : List Str) :
    parseSegments none (l :: rest) =
      { typ := .code, lines := l :: (takeCode none rest).1, indent := [], marker := [] } ::
        parseSegments none (takeCode none rest).2 := by
  rw [parseSegments_cons]

theorem parseSegments_flatMap_lines (lango : Option Language) (ls : List Str) :
    (parseSegments lango ls).flatMap (fun s => s.lines) = ls := by
  have main : ∀ (n : Nat) (ls : List Str), ls.length ≤ n →
      (parseSegments lango ls).flatMap (fun s => s.lines) = ls := by
    intro n
    induction n with
    | zero =>
      intro ls h
      match ls with
      | [] => simp [parseSegments, parseSegmentsFuel]
      | l :: rest => simp at h
    | succ n ih =>
      intro ls h
      match ls with
      | [] => simp [parseSegments, parseSegmentsFuel]
      | l :: rest =>
        cases lango with
        | none =>
          rw [parseSegments_none_eq]
          simp only [List.flatMap_cons]
          have hle := takeCode_rem_length none rest
          simp only [List.length_cons] at h
          rw [ih (takeCode none rest).2 (by omega)]
          have := takeCode_append none rest
          simp only [List.cons_append, List.cons.injEq, true_and]
          exact this
        | some lang =>
          cases hb : (if !lang.blockStart.isEmpty then tryBlockComment lang (l :: rest) else none) with
          | some p =>
            cases p with
            | mk seg rem =>
              rw [parseSegments_block_eq lang l rest seg rem hb]
              have hb2 : tryBlockComment lang (l :: rest) = some (seg, rem) := by
                by_cases hx : (!lang.blockStart.isEmpty) = true
                · simpa [hx] using hb
                · simp [hx] at hb
              have happ := tryBlockComment_append _ _ _ _ hb2
              have hlt : rem.length < (l :: rest).length :=
                append_ne_nil_length_lt happ
                  (tryBlockComment_nonempty _ _ _ _ (by simp) hb2)
              simp only [List.length_cons] at h hlt
              simp only [List.flatMap_cons]
              rw [ih rem (by omega)]
              exact happ
          | none =>
            cases hl : (if !lang.lineMarkers.isEmpty then tryLineCommentBlock lang (l :: rest) else none) with
            | some p =>
              cases p with
              | mk seg rem =>
                rw [parseSegments_line_eq lang l rest seg rem hb hl]
                have hl2 : tryLineCommentBlock lang (l :: rest) = some (seg, rem) := by
                  by_cases hx : (!lang.lineMarkers.isEmpty) = true
                  · simpa [hx] using hl
                  · simp [hx] at hl
                have happ := tryLineCommentBlock_append _ _ _ _ hl2
                have hlt : rem.length < (l :: rest).length :=
                  append_ne_nil_length_lt happ
                    (tryLineCommentBlock_nonempty _ _ _ _ hl2)
                simp only [List.length_cons] at h hlt
                simp only [List.flatMap_cons]
                rw [ih rem (by omega)]
                exact happ
            | none =>
              rw [parseSegments_code_eq lang l rest hb hl]
              simp only [List.flatMap_cons]
              have hle := takeCode_rem_length (some lang) rest
              simp only [List.length_cons] at h
              rw [ih (takeCode (some lang) rest).2 (by omega)]
              have := takeCode_append (some lang) rest
              simp only [List.cons_append, List.cons.injEq, true_and]
              exact this
  exact main ls.length ls (le_refl _)

/-- C6: for every list of input lines and every language descriptor
(including absent), the segments returned by `parseSegments` exactly tile
the input: their concatenated lines in order equal the input lines, and
the total line count is conserved. -/
theorem segments_tile_input (lango : Option Language) (ls : List Str) :
    (parseSegments lango ls).flatMap (fun s => s.lines) = ls ∧
    ((parseSegments lango ls).map (fun s => s.lines.length)).sum = ls.length := by
  refine ⟨parseSegments_flatMap_lines lango ls, ?_⟩
  have h := parseSegments_flatMap_lines lango ls
  calc ((parseSegments lango ls).map (fun s => s.lines.length)).sum
      = ((parseSegments lango ls).flatMap (fun s => s.lines)).length := by
        rw [List.length_flatMap]; rfl
    _ = ls.length := by rw [h]

/-- C1 (code bug): `Source` is not idempotent.  On the Python input
`"# a\n  #  \n# b"` (a whitespace-only `#` comment line, indented two
spaces, between two unindented `#` comment lines) at column 80 and tab
width 4, the first pass drops the whitespace-only comment line entirely
(its wrapped text is blank, so `wrapText` emits no lines), producing
`"# a\n# b"`; the second pass then merges the two now-adjacent comment
runs into one paragraph, producing `"# a b"`.  Hence
`Source(Source(x)) ≠ Source(x)`, contradicting the spec's idempotence
property and the repository's own idempotence test. -/
theorem source_second_pass_differs_on_vanishing_blank_comment_line :
    Source defaultParsers ("# a\n  #  \n# b".toList) (some pythonLang) 80 4 =
      "# a\n# b".toList ∧
    Source defaultParsers
        (Source defaultParsers ("# a\n  #  \n# b".toList) (some pythonLang) 80 4)
        (some pythonLang) 80 4 =
      "# a b".toList ∧
    Source defaultParsers
        (Source defaultParsers ("# a\n  #  \n# b".toList) (some pythonLang) 80 4)
        (some pythonLang) 80 4 ≠
      Source defaultParsers ("# a\n  #  \n# b".toList) (some pythonLang) 80 4 := by
  refine ⟨by decide, by decide, ?_⟩
  decide

/-- C3 (code bug): on the empty input in plain-text mode (absent
language), `Source` returns a single newline: the empty input splits into
one empty line, `wrapText("")` yields one empty output line, and
`wrapPlainText`'s trailing-newline test (`lines[len-1] == ""`) fires, so
the output ends with a newline although the input was empty — the
trailing-newline contract says the output must end with a newline only
when the input was non-empty and ended with one. -/
theorem source_empty_input_emits_newline :
    Source defaultParsers [] none 80 4 = ['\n'] := by
  decide

/-- C7 (code bug): a decoration line is not always emitted byte-identical.
On the Python input `"# hello\n#----"` at column 80 and tab width 4, the
two lines group into one segment with resolved marker `"# "` (taken from
the first line); stripping two characters from `"#----"` yields content
`"---"`, which satisfies the decoration predicate, and the line is
re-emitted as `indent+marker+content = "# ---"` — not byte-identical to
the original `"#----"` (one dash is lost), contradicting the claim and the
code's own comment that decoration lines are "preserved verbatim". -/
theorem decoration_line_rewritten_not_byte_identical :
    Source defaultParsers ("# hello\n#----".toList) (some pythonLang) 80 4 =
      "# hello\n# ---".toList ∧
    isDecorationLine (trimLeftWsTab "#----".toList |>.drop "# ".toList.length) = true ∧
    ¬ "#----".toList ∈ splitLines (Source defaultParsers
        ("# hello\n#----".toList) (some pythonLang) 80 4) := by
  refine ⟨by decide, by decide, ?_⟩
  decide

theorem fields_ne_nil (s : Str) : ∀ w ∈ fields s, w ≠ [] := by
  intro w hw
  have := List.of_mem_filter hw
  simpa [List.isEmpty_iff] using this

theorem joinSp_singleton (w : Str) : joinSp [w] = w := by
  simp [joinSp, List.intercalate]

theorem joinSp_append_singleton (cur : List Str) (w : Str) (h : cur ≠ []) :
    joinSp (cur ++ [w]) = joinSp cur ++ ' ' :: w := by
  induction cur with
  | nil => exact absurd rfl h
  | cons x rest ih =>
    cases rest with
    | nil => simp [joinSp, List.intercalate]
    | cons y ys =>
      have := ih (by simp)
      simp only [joinSp, List.intercalate] at this ⊢
      simp only [List.cons_append]
      simp_all [List.intersperse]

/-- The greedy packing loop of the amended C5 claim: a token joins the
current line when `curWidth + 1 + tokenWidth ≤ available`, otherwise it
starts a new line whose available width is the continuation one. -/
def packGo (availC t : Int) : List Str → List Str → Int → Int → List (List Str)
  | [], cur, _, _ => [cur]
  | w :: ws, cur, curW, avail =>
    let ww := displayWidth w t
    if curW + 1 + ww ≤ avail then packGo availC t ws (cur ++ [w]) (curW + 1 + ww) avail
    else cur :: packGo availC t ws [w] ww availC

/-- Group a token list into greedy lines (amended C5 wording): the first
line gets `avail`, every later line `availC`. -/
def packTokens (avail availC t : Int) : List Str → List (List Str)
  | [] => []
  | w :: ws => packGo availC t ws [w] (displayWidth w t) avail

/-- Render packed token groups: tokens on one line are joined by single
spaces; the first line carries the active prefix, later lines the
continuation prefix. -/
def renderPacked (cp contPre : Str) : List (List Str) → List Str
  | [] => []
  | g :: gs => (cp ++ joinSp g) :: gs.map (fun g2 => contPre ++ joinSp g2)

/-- `wrapParagraph` as the amended C5 claim words it: tokenize the
paragraph by splitting on whitespace runs, discarding the original gap
widths; greedily pack tokens with the test
`currentWidth + 1 + tokenWidth ≤ available`; join the tokens of each
output line with single spaces. -/
def wrapParagraphSpec (text firstPre contPre : Str) (col t : Int)
    (isFirst : Bool) : List Str :=
  let words := fields text
  let cp := if isFirst then firstPre else contPre
  let avail := max (col - displayWidth cp t) 1
  let availC := max (col - displayWidth contPre t) 1
  renderPacked cp contPre (packTokens avail availC t words)

theorem renderPacked_same (q : Str) (gs : List (List Str)) :
    renderPacked q q gs = gs.map (fun g => q ++ joinSp g) := by
  cases gs <;> simp [renderPacked]

theorem wrapParagraphGo_eq_pack (contPre : Str) (col t : Int) :
    ∀ (ws : List Str) (lines : List Str) (cur : List Str) (curW : Int)
      (cp : Str) (avail : Int),
      cur ≠ [] → joinSp cur ≠ [] → (∀ w ∈ ws, w ≠ []) →
      wrapParagraphGo contPre col t ws lines (joinSp cur) curW cp avail =
        lines ++ renderPacked cp contPre
          (packGo (max (col - displayWidth contPre t) 1) t ws cur curW avail) := by
  intro ws
  induction ws with
  | nil =>
    intro lines cur curW cp avail hcur hjoin _
    simp only [wrapParagraphGo, packGo, renderPacked, List.map_nil]
    simp [List.isEmpty_iff, hjoin]
  | cons w ws ih =>
    intro lines cur curW cp avail hcur hjoin hws
    have hwne : w ≠ [] := hws w (List.mem_cons_self w ws)
    have hwsrest : ∀ x ∈ ws, x ≠ [] := fun x hx => hws x (List.mem_cons.mpr (Or.inr hx))
    have hnotempty : ¬((joinSp cur).isEmpty = true) := by
      simpa [List.isEmpty_iff] using hjoin
    simp only [wrapParagraphGo, packGo, if_neg hnotempty]
    by_cases hfit : curW + 1 + displayWidth w t > avail
    · rw [if_pos hfit, if_neg (by omega : ¬(curW + 1 + displayWidth w t ≤ avail))]
      have hrec := ih (lines ++ [cp ++ joinSp cur]) [w] (displayWidth w t) contPre
        (max (col - displayWidth contPre t) 1) (by simp)
        (by rw [joinSp_singleton]; exact hwne) hwsrest
      rw [joinSp_singleton] at hrec
      rw [hrec, renderPacked_same]
      simp only [renderPacked, List.append_assoc, List.singleton_append]
    · rw [if_neg hfit, if_pos (by omega : curW + 1 + displayWidth w t ≤ avail)]
      have hjoin2 : joinSp (cur ++ [w]) = joinSp cur ++ ' ' :: w :=
        joinSp_append_singleton cur w hcur
      rw [← hjoin2]
      rw [ih lines (cur ++ [w]) (curW + 1 + displayWidth w t) cp avail
        (by simp) (by rw [hjoin2]; simp) hwsrest]

theorem wrapParagraph_eq_spec (text firstPre contPre : Str) (col t : Int)
    (isFirst : Bool) :
    wrapParagraph text firstPre contPre col t isFirst =
      wrapParagraphSpec text firstPre contPre col t isFirst := by
  unfold wrapParagraph wrapParagraphSpec
  cases hf : fields text with
  | nil => simp [packTokens, renderPacked]
  | cons w ws =>
    simp only [List.isEmpty_cons, Bool.false_eq_true, if_neg, not_false_eq_true, packTokens]
    have hwne : w ≠ [] := fields_ne_nil text w (hf ▸ List.mem_cons_self w ws)
    have hwsne : ∀ x ∈ ws, x ≠ [] := fun x hx =>
      fields_ne_nil text x (hf ▸ List.mem_cons.mpr (Or.inr hx))
    simp only [wrapParagraphGo, List.isEmpty_nil, if_pos, List.nil_append, zero_add]
    have hrec := wrapParagraphGo_eq_pack contPre col t ws [] [w] (displayWidth w t)
      (if isFirst = true then firstPre else contPre)
      (max (col - displayWidth (if isFirst = true then firstPre else contPre) t) 1)
      (by simp) (by rw [joinSp_singleton]; exact hwne) hwsne
    rw [joinSp_singleton] at hrec
    rw [hrec]
    simp only [List.nil_append]

/-- C5 (amended): `wrapParagraph` tokenizes by splitting on whitespace
runs and discards the original inter-token gaps; a token is placed on the
current line exactly when `currentWidth + 1 + tokenWidth ≤ available`; and
tokens sharing an output line are joined by a single space (the original
gap is never reproduced).  `wrapParagraphSpec` is that algorithm stated
directly; the two agree on every input. -/
theorem wrapParagraph_is_gap_collapsing_greedy (text firstPre contPre : Str)
    (col t : Int) (isFirst : Bool) :
    wrapParagraph text firstPre contPre col t isFirst =
      wrapParagraphSpec text firstPre contPre col t isFirst :=
  wrapParagraph_eq_spec text firstPre contPre col t isFirst

/-- C5 counterexample: two tokens separated by a two-space gap that land
on the same output line are joined by a single space, not by the original
gap: `wrapText("a  b", "", "", 80, 4) = ["a b"]`, and `"a b" ≠ "a  b"`. -/
theorem multi_space_gap_collapsed :
    wrapText "a  b".toList [] [] 80 4 = ["a b".toList] ∧
    "a b".toList ≠ "a  b".toList := by
  refine ⟨by decide, by decide⟩

theorem extendLineRun_mem_match (lang : Language) (indent base : Str) :
    ∀ (ls : List Str) (marker : Str),
      ∀ l ∈ (extendLineRun lang indent base marker ls).1,
        (matchLineComment l lang).isSome = true := by
  intro ls
  induction ls with
  | nil => intro marker l hl; simp [extendLineRun] at hl
  | cons x rest ih =>
    intro marker l hl
    cases hm : matchLineComment x lang with
    | none => simp [extendLineRun, hm] at hl
    | some p =>
      cases p with
      | mk ind mk =>
        by_cases hi : ind = indent
        · by_cases hbase : trimRightSp mk = base
          · simp only [extendLineRun, hm, hi, hbase] at hl
            rw [if_pos (by simp)] at hl
            rcases List.mem_cons.mp hl with rfl | hl2
            · simp [hm]
            · exact ih _ l hl2
          · simp [extendLineRun, hm, hbase] at hl
        · simp [extendLineRun, hm, hi] at hl

theorem tryBlockComment_not_comment (lang : Language) (ls : List Str)
    (seg : segment) (rem : List Str)
    (h : tryBlockComment lang ls = some (seg, rem)) :
    seg.typ ≠ segmentType.comment := by
  match ls with
  | [] => simp [tryBlockComment] at h
  | l :: rest =>
    simp only [tryBlockComment] at h
    split at h
    · exact absurd h (by simp)
    · split at h
      · exact absurd h (by simp)
      · split at h
        · simp only [Option.some.injEq, Prod.mk.injEq] at h
          rw [← h.1]
          simp
        · simp only [Option.some.injEq, Prod.mk.injEq] at h
          rw [← h.1]
          simp

theorem comment_seg_lines_match (lang : Language) (ls : List Str)
    (seg : segment) (hseg : seg ∈ parseSegments (some lang) ls)
    (htyp : seg.typ = segmentType.comment) :
    ∀ l ∈ seg.lines, (matchLineComment l lang).isSome = true := by
  have main : ∀ (n : Nat) (ls : List Str), ls.length ≤ n →
      ∀ seg ∈ parseSegments (some lang) ls, seg.typ = segmentType.comment →
        ∀ l ∈ seg.lines, (matchLineComment l lang).isSome = true := by
    intro n
    induction n with
    | zero =>
      intro ls h seg hseg
      match ls with
      | [] => simp [parseSegments, parseSegmentsFuel] at hseg
      | l :: rest => simp at h
    | succ n ih =>
      intro ls h seg hseg htyp2 l hl
      match ls with
      | [] => simp [parseSegments, parseSegmentsFuel] at hseg
      | x :: rest =>
        cases hb : (if !lang.blockStart.isEmpty then tryBlockComment lang (x :: rest) else none) with
        | some p =>
          cases p with
          | mk seg2 rem =>
            rw [parseSegments_block_eq lang x rest seg2 rem hb] at hseg
            have hb2 : tryBlockComment lang (x :: rest) = some (seg2, rem) := by
              by_cases hx : (!lang.blockStart.isEmpty) = true
              · simpa [hx] using hb
              · simp [hx] at hb
            rcases List.mem_cons.mp hseg with rfl | hseg2
            · exact absurd htyp2 (tryBlockComment_not_comment lang (x :: rest) _ _ hb2)
            · have hlt : rem.length < (x :: rest).length :=
                append_ne_nil_length_lt (tryBlockComment_append _ _ _ _ hb2)
                  (tryBlockComment_nonempty _ _ _ _ (by simp) hb2)
              simp only [List.length_cons] at h hlt
              exact ih rem (by omega) seg hseg2 htyp2 l hl
        | none =>
          cases hlc : (if !lang.lineMarkers.isEmpty then tryLineCommentBlock lang (x :: rest) else none) with
          | some p =>
            cases p with
            | mk seg2 rem =>
              rw [parseSegments_line_eq lang x rest seg2 rem hb hlc] at hseg
              have hl2 : tryLineCommentBlock lang (x :: rest) = some (seg2, rem) := by
                by_cases hx : (!lang.lineMarkers.isEmpty) = true
                · simpa [hx] using hlc
                · simp [hx] at hlc
              rcases List.mem_cons.mp hseg with rfl | hseg2
              · -- seg is the comment run itself: its lines all matched
                simp only [tryLineCommentBlock] at hl2
                cases hm : matchLineComment x lang with
                | none => rw [hm] at hl2; exact absurd hl2 (by simp)
                | some q =>
                  cases q with
                  | mk indent marker =>
                    rw [hm] at hl2
                    simp only at hl2
                    cases hrun : extendLineRun lang indent (trimRightSp marker) marker (x :: rest) with
                    | mk run p2 =>
                      cases p2 with
                      | mk finalMk rem2 =>
                        rw [hrun] at hl2
                        simp only [Option.some.injEq, Prod.mk.injEq] at hl2
                        have hlines : seg.lines = run := by rw [← hl2.1]
                        have := extendLineRun_mem_match lang indent (trimRightSp marker)
                          (x :: rest) marker l (by rw [hrun]; rw [hlines] at hl; exact hl)
                        exact this
              · have hlt : rem.length < (x :: rest).length :=
                  append_ne_nil_length_lt (tryLineCommentBlock_append _ _ _ _ hl2)
                    (tryLineCommentBlock_nonempty _ _ _ _ hl2)
                simp only [List.length_cons] at h hlt
                exact ih rem (by omega) seg hseg2 htyp2 l hl
          | none =>
            rw [parseSegments_code_eq lang x rest hb hlc] at hseg
            rcases List.mem_cons.mp hseg with rfl | hseg2
            · simp at htyp2
            · have hle := takeCode_rem_length (some lang) rest
              simp only [List.length_cons] at h
              exact ih _ (by omega) seg hseg2 htyp2 l hl
  exact main ls.length ls le_rfl seg hseg htyp

theorem renderSegment_code (P : Parsers) (lang : Language) (col t : Int)
    (seg : segment) (htyp : seg.typ = segmentType.code) :
    renderSegment P lang col t seg = seg.lines := by
  unfold renderSegment
  rw [htyp]

/-- C8 (amended): outside block comments, a line whose first matching
line-comment marker is immediately followed by a directive prefix never
begins or extends a line-comment run: `matchLineComment` rejects it, so it
never appears in any LineComment segment (hence, by the tiling theorem, it
lies in a Code or BlockComment segment), and Code segments are emitted by
`Source` verbatim. -/
theorem directive_line_is_code (lang : Language) (line : Str) (m : Str)
    (hm : findMarker lang.lineMarkers (trimLeftWsTab line) = some m)
    (hd : lang.directives.any
      (fun d => d.isPrefixOf ((trimLeftWsTab line).drop m.length)) = true) :
    matchLineComment line lang = none ∧
    (∀ (ls : List Str) (seg : segment), seg ∈ parseSegments (some lang) ls →
      seg.typ = segmentType.comment → line ∉ seg.lines) ∧
    (∀ (P : Parsers) (col t : Int) (seg : segment),
      seg.typ = segmentType.code → renderSegment P lang col t seg = seg.lines) := by
  have hnone : matchLineComment line lang = none := by
    unfold matchLineComment
    by_cases he : (trimLeftWsTab line).isEmpty = true
    · rw [if_pos he]
    · rw [if_neg he]
      rw [hm]
      simp only [hd, if_pos]
  refine ⟨hnone, ?_, ?_⟩
  · intro ls seg hseg htyp hline
    have := comment_seg_lines_match lang ls seg hseg htyp line hline
    rw [hnone] at this
    simp at this
  · intro P col t seg htyp
    exact renderSegment_code P lang col t seg htyp

/-- C8 witness: for the Go language, the directive line
`"//go:generate foo"` (first matching marker `"//"`, remainder starting
with the directive prefix `"go:"`) is rejected by `matchLineComment`. -/
theorem directive_line_is_code_witness :
    matchLineComment "//go:generate foo".toList goLang = none :=
  (directive_line_is_code goLang "//go:generate foo".toList "//".toList
    (by decide) (by decide)).1

/-- C8 counterexample: the claim as stated is false because it does not
exclude block comments.  In the Go input `"/*\n//go:generate foo bar\n*/"`
the middle line starts (after no whitespace) with the line-comment marker
`"//"` immediately followed by the directive prefix `"go:"`, yet at column
15 it is classified as part of a BlockComment segment and reflowed — it is
not emitted verbatim and is not classified as Code. -/
theorem directive_line_inside_block_comment_reflowed :
    Source defaultParsers ("/*\n//go:generate foo bar\n*/".toList) (some goLang) 15 4 =
      "/*\n * //go:generate\n * foo bar\n */".toList ∧
    findMarker goLang.lineMarkers
      (trimLeftWsTab "//go:generate foo bar".toList) = some "//".toList ∧
    goLang.directives.any (fun d => d.isPrefixOf
      ((trimLeftWsTab "//go:generate foo bar".toList).drop "//".toList.length)) = true ∧
    ¬ "//go:generate foo bar".toList ∈ splitLines (Source defaultParsers
      ("/*\n//go:generate foo bar\n*/".toList) (some goLang) 15 4) ∧
    (parseSegments (some goLang)
      (splitLines "/*\n//go:generate foo bar\n*/".toList)).map segment.typ =
      [segmentType.block] := by
  refine ⟨by decide, by decide, by decide, by decide, by decide⟩

theorem blockScan_none (endTok : Str) :
    ∀ (ls : List Str), (∀ x ∈ ls, ¬ strContains x endTok = true) →
      blockScan endTok ls = none := by
  intro ls
  induction ls with
  | nil => intro _; rfl
  | cons l rest ih =>
    intro h
    simp only [blockScan]
    rw [if_neg (h l (List.mem_cons_self l rest))]
    rw [ih (fun x hx => h x (List.mem_cons.mpr (Or.inr hx)))]

theorem findMarker_markers_ne_nil {markers : List Str} {trimmed m : Str}
    (h : findMarker markers trimmed = some m) : markers ≠ [] := by
  intro he
  subst he
  simp [findMarker] at h

theorem splitLines_ne_nil (s : Str) : splitLines s ≠ [] := by
  induction s with
  | nil => simp [splitLines]
  | cons c rest ih =>
    simp only [splitLines]
    cases h : splitLines rest with
    | nil => exact absurd h ih
    | cons x xs =>
      by_cases hc : c = '\n' <;> simp [hc]

theorem intercalate_two (sep x y : Str) (zs : List Str) :
    List.intercalate sep (x :: y :: zs) = x ++ sep ++ List.intercalate sep (y :: zs) := by
  simp [List.intercalate, List.intersperse]

theorem intercalate_one (sep x : Str) : List.intercalate sep [x] = x := by
  simp [List.intercalate, List.intersperse]

theorem joinLines_splitLines (s : Str) : joinLines (splitLines s) = s := by
  induction s with
  | nil => rfl
  | cons c rest ih =>
    simp only [splitLines]
    cases h : splitLines rest with
    | nil => exact absurd h (splitLines_ne_nil rest)
    | cons x xs =>
      rw [h] at ih
      show joinLines (if c = '\n' then [] :: x :: xs else (c :: x) :: xs) = c :: rest
      by_cases hc : c = '\n'
      · rw [if_pos hc, hc]
        show joinLines ([] :: x :: xs) = '\n' :: rest
        unfold joinLines at ih ⊢
        rw [intercalate_two]
        simp only [List.nil_append, List.singleton_append]
        rw [ih]
      · rw [if_neg hc]
        show joinLines ((c :: x) :: xs) = c :: rest
        unfold joinLines at ih ⊢
        cases xs with
        | nil =>
          rw [intercalate_one] at ih ⊢
          rw [ih]
        | cons y ys =>
          rw [intercalate_two] at ih ⊢
          rw [List.cons_append, List.cons_append, ih]

theorem getLast?_cons_ne_nil (a : Char) (x : Str) (h : x ≠ []) :
    (a :: x).getLast? = x.getLast? := by
  cases x with
  | nil => exact absurd rfl h
  | cons b l => exact List.getLast?_cons_cons

theorem normalizeNewlines_ne_nil (s : Str) (h : s ≠ []) :
    normalizeNewlines s ≠ [] := by
  induction s using normalizeNewlines.induct with
  | case1 => exact absurd rfl h
  | case2 rest ih => simp [normalizeNewlines]
  | case3 rest hne ih =>
    rw [normalizeNewlines]
    · simp
    · intro r hr
      exact hne r hr
  | case4 c rest hne1 hne2 ih =>
    rw [normalizeNewlines]
    · simp
    · intro r h1 h2
      exact hne1 r h1 h2
    · intro h1
      exact hne2 h1

theorem normalizeNewlines_getLast (s : Str) (h : s.getLast? = some '\n') :
    (normalizeNewlines s).getLast? = some '\n' := by
  induction s using normalizeNewlines.induct with
  | case1 => simp at h
  | case2 rest ih =>
    by_cases hr : rest = []
    · subst hr
      decide
    · have h2 : rest.getLast? = some '\n' := by
        rw [getLast?_cons_ne_nil _ ('\n' :: rest) (by simp),
          getLast?_cons_ne_nil _ rest hr] at h
        exact h
      have hnorm : normalizeNewlines ('\r' :: '\n' :: rest) =
          '\n' :: normalizeNewlines rest := rfl
      rw [hnorm, getLast?_cons_ne_nil _ _ (normalizeNewlines_ne_nil rest hr)]
      exact ih h2
  | case3 rest hne ih =>
    by_cases hr : rest = []
    · subst hr
      simp [List.getLast?] at h
    · have h2 : rest.getLast? = some '\n' := by
        rw [getLast?_cons_ne_nil _ rest hr] at h
        exact h
      have hnorm : normalizeNewlines ('\r' :: rest) = '\n' :: normalizeNewlines rest := by
        rw [normalizeNewlines]
        · intro r hrr
          exact hne r hrr
      rw [hnorm, getLast?_cons_ne_nil _ _ (normalizeNewlines_ne_nil rest hr)]
      exact ih h2
  | case4 c rest hne1 hne2 ih =>
    have hnorm : normalizeNewlines (c :: rest) = c :: normalizeNewlines rest := by
      rw [normalizeNewlines]
      · intro r h1 h2
        exact hne1 r h1 h2
      · intro h1
        exact hne2 h1
    by_cases hr : rest = []
    · subst hr
      simp [List.getLast?] at h
      rw [hnorm]
      simp [normalizeNewlines, List.getLast?, h]
    · have h2 : rest.getLast? = some '\n' := by
        rw [getLast?_cons_ne_nil _ rest hr] at h
        exact h
      rw [hnorm, getLast?_cons_ne_nil _ _ (normalizeNewlines_ne_nil rest hr)]
      exact ih h2

theorem normalizeNewlines_trailing (s : Str) (h : s.getLast? = some '\n') :
    endsWithNL (normalizeNewlines s) = true := by
  simp [endsWithNL, normalizeNewlines_getLast s h]

/-- C9: when a line starts (after leading whitespace) with a block-comment
start token but no line from there to the end of the input contains the
end token (`BlockEnd[0]`), the classifier emits the whole remaining input
as one Code segment — not an error — and `Source` passes the text through
unchanged (modulo the always-performed line-ending normalization). -/
theorem unterminated_block_is_code_and_verbatim (P : Parsers) (lang : Language)
    (src : Str) (col t : Int) (l : Str) (rest : List Str) (m : Str)
    (hname : ¬ lang.name = "markdown".toList)
    (hsplit : splitLines (normalizeNewlines src) = l :: rest)
    (hm : findMarker lang.blockStart (trimLeftWsTab l) = some m)
    (hmne : ¬ m.isEmpty = true)
    (hnoend : ∀ x ∈ l :: rest, ¬ strContains x (lang.blockEnd.headD []) = true) :
    parseSegments (some lang) (splitLines (normalizeNewlines src)) =
      [{ typ := segmentType.code, lines := l :: rest, indent := [], marker := [] }] ∧
    Source P src (some lang) col t = normalizeNewlines src := by
  have htb : tryBlockComment lang (l :: rest) =
      some (({ typ := segmentType.code, lines := l :: rest,
               indent := [], marker := [] } : segment), ([] : List Str)) := by
    simp only [tryBlockComment, hm]
    rw [if_neg hmne, blockScan_none _ _ hnoend]
  have hbsne : (!lang.blockStart.isEmpty) = true := by
    have := findMarker_markers_ne_nil hm
    simpa [List.isEmpty_iff] using this
  have hps : parseSegments (some lang) (l :: rest) =
      [{ typ := segmentType.code, lines := l :: rest, indent := [], marker := [] }] := by
    rw [parseSegments_block_eq lang l rest _ [] (by rw [if_pos hbsne]; exact htb)]
    rfl
  refine ⟨by rw [hsplit]; exact hps, ?_⟩
  unfold Source
  simp only
  rw [if_neg hname, hsplit, hps]
  simp only [List.flatMap_cons, List.flatMap_nil, List.append_nil]
  rw [renderSegment_code P lang col t _ rfl]
  rw [show joinLines (l :: rest) = normalizeNewlines src by
    rw [← hsplit, joinLines_splitLines]]
  by_cases hsrc : src.getLast? = some '\n'
  · have hnl := normalizeNewlines_trailing src hsrc
    simp [hnl]
  · simp [hsrc]

/-- C9 witness: the C input `"/* begin"` is an unterminated block comment;
it becomes a single Code segment and `Source` returns it unchanged. -/
theorem unterminated_block_is_code_and_verbatim_witness :
    parseSegments (some cLang) (splitLines (normalizeNewlines "/* begin".toList)) =
      [{ typ := segmentType.code, lines := ["/* begin".toList],
         indent := [], marker := [] }] ∧
    Source defaultParsers "/* begin".toList (some cLang) 80 4 =
      normalizeNewlines "/* begin".toList :=
  unterminated_block_is_code_and_verbatim defaultParsers cLang "/* begin".toList
    80 4 "/* begin".toList [] "/*".toList (by decide) (by decide) (by decide)
    (by decide) (by decide)

theorem trimLeftWsTab_all_ws (line : Str) (h : ∀ c ∈ line, c = ' ' ∨ c = '\t') :
    trimLeftWsTab line = [] := by
  induction line with
  | nil => rfl
  | cons c rest ih =>
    have hc := h c (List.mem_cons_self c rest)
    have : (c = ' ' || c = '\t') = true := by
      rcases hc with rfl | rfl <;> simp
    simp only [trimLeftWsTab, this, if_pos]
    exact ih (fun x hx => h x (List.mem_cons.mpr (Or.inr hx)))

/-- C10: an all-whitespace line (spaces and tabs only, or empty) never
begins or extends a line-comment run: `matchLineComment` rejects it, so it
never lies in a LineComment segment — two comment runs separated by such a
line are therefore classified into distinct segments and wrapped
independently — and, outside block comments, its Code segment is emitted
by `Source` byte-identically. -/
theorem whitespace_line_never_joins_comment_run (lang : Language) (line : Str)
    (hws : ∀ c ∈ line, c = ' ' ∨ c = '\t') :
    matchLineComment line lang = none ∧
    (∀ (ls : List Str) (seg : segment), seg ∈ parseSegments (some lang) ls →
      seg.typ = segmentType.comment → line ∉ seg.lines) ∧
    (∀ (P : Parsers) (col t : Int) (seg : segment),
      seg.typ = segmentType.code → renderSegment P lang col t seg = seg.lines) := by
  have hnone : matchLineComment line lang = none := by
    unfold matchLineComment
    rw [trimLeftWsTab_all_ws line hws]
    simp
  refine ⟨hnone, ?_, ?_⟩
  · intro ls seg hseg htyp hline
    have := comment_seg_lines_match lang ls seg hseg htyp line hline
    rw [hnone] at this
    simp at this
  · intro P col t seg htyp
    exact renderSegment_code P lang col t seg htyp

/-- C10 witness: the all-whitespace line `"  "` is rejected by
`matchLineComment` for the Python language. -/
theorem whitespace_line_never_joins_comment_run_witness :
    matchLineComment "  ".toList pythonLang = none :=
  (whitespace_line_never_joins_comment_run pythonLang "  ".toList (by decide)).1

/-!
## Panic-aware pipeline

Go has runtime failure paths that the total functions above cannot
express: `displayWidth` evaluates `col % tabWidth`, which panics when
`tabWidth == 0` and a tab is present; `tryBlockComment` and
`rewrapBlockComment` index `lang.BlockEnd[0]` / `lang.BlockStart[0]`,
which panics when the list is empty; and `processMarkdown` slices
`lines[p.start:p.end]`, which panics when a paragraph range is out of
bounds.  The `...Checked` functions below mirror the same code with
`Option`, returning `none` exactly on those panic paths.
-/

/-- `displayWidth` with Go's modulo-by-zero panic made explicit: `none`
when a tab is encountered and `tabWidth = 0`. -/
def displayWidthAuxChecked (t : Int) : Str → Int → Option Int
  | [], col => some col
  | c :: rest, col =>
    if c = '\t' then
      if t = 0 then none
      else displayWidthAuxChecked t rest (col + (t - Int.tmod col t))
    else displayWidthAuxChecked t rest (col + 1)

/-- Panic-aware `displayWidth`. -/
def displayWidthChecked (s : Str) (t : Int) : Option Int :=
  displayWidthAuxChecked t s 0

/-- Panic-aware word loop of `wrapParagraph`. -/
def wrapParagraphGoChecked (contPre : Str) (col t : Int) :
    List Str → List Str → Str → Int → Str → Int → Option (List Str)
  | [], lines, line, _, cp, _ =>
    some (if line.isEmpty then lines else lines ++ [cp ++ line])
  | w :: ws, lines, line, lw, cp, avail =>
    match displayWidthChecked w t with
    | none => none
    | some ww =>
      if line.isEmpty then
        wrapParagraphGoChecked contPre col t ws lines (line ++ w) (lw + ww) cp avail
      else if lw + 1 + ww > avail then
        match displayWidthChecked contPre t with
        | none => none
        | some cw =>
          wrapParagraphGoChecked contPre col t ws (lines ++ [cp ++ line]) w ww
            contPre (max (col - cw) 1)
      else
        wrapParagraphGoChecked contPre col t ws lines (line ++ ' ' :: w)
          (lw + 1 + ww) cp avail

/-- Panic-aware `wrapParagraph`. -/
def wrapParagraphChecked (text firstPre contPre : Str) (col t : Int)
    (isFirst : Bool) : Option (List Str) :=
  let words := fields text
  if words.isEmpty then some []
  else
    let cp := if isFirst then firstPre else contPre
    match displayWidthChecked cp t with
    | none => none
    | some cw => wrapParagraphGoChecked contPre col t words [] [] 0 cp (max (col - cw) 1)

/-- Panic-aware loop over the non-first paragraphs of `wrapText`. -/
def wrapTextRestChecked (firstPre contPre : Str) (col t : Int) :
    List Str → Option (List Str)
  | [] => some []
  | para :: ps =>
    match wrapParagraphChecked para firstPre contPre col t false with
    | none => none
    | some w =>
      match wrapTextRestChecked firstPre contPre col t ps with
      | none => none
      | some r => some (trimRightSp contPre :: (w ++ r))

/-- Panic-aware `wrapText`. -/
def wrapTextChecked (text firstPre contPre : Str) (col t : Int) :
    Option (List Str) :=
  if text.isEmpty then some [firstPre]
  else
    match splitParagraphs text with
    | [] => some []
    | p :: ps =>
      match wrapParagraphChecked p firstPre contPre col t true with
      | none => none
      | some first =>
        match wrapTextRestChecked firstPre contPre col t ps with
        | none => none
        | some rest => some (first ++ rest)

/-- Panic-aware `tryBlockComment`: Go indexes `lang.BlockEnd[0]` after a
(non-empty) start token matched, which panics when `BlockEnd` is empty. -/
def tryBlockCommentChecked (lang : Language) (ls : List Str) :
    Option (Option (segment × List Str)) :=
  match ls with
  | [] => some none
  | l :: _ =>
    let trimmed := trimLeftWsTab l
    let indent := l.take (l.length - trimmed.length)
    match findMarker lang.blockStart trimmed with
    | none => some none
    | some startMk =>
      if startMk.isEmpty then some none
      else
        match lang.blockEnd.head? with
        | none => none
        | some endTok =>
          match blockScan endTok ls with
          | some (covered, rem) =>
            some (some ({ typ := .block, lines := covered, indent := indent,
                          marker := [] }, rem))
          | none =>
            some (some ({ typ := .code, lines := ls, indent := [],
                          marker := [] }, []))

/-- Panic-aware break test of the code-accumulation loop. -/
def isSegStartChecked (lango : Option Language) (ls : List Str) : Option Bool :=
  match lango with
  | none => some false
  | some lang =>
    if (tryLineCommentBlock lang ls).isSome then some true
    else if !lang.blockStart.isEmpty then
      match tryBlockCommentChecked lang ls with
      | none => none
      | some tb => some tb.isSome
    else some false

/-- Panic-aware `takeCode`. -/
def takeCodeChecked (lango : Option Language) : List Str → Option (List Str × List Str)
  | [] => some ([], [])
  | l :: rest =>
    match isSegStartChecked lango (l :: rest) with
    | none => none
    | some b =>
      if b then some ([], l :: rest)
      else
        match takeCodeChecked lango rest with
        | none => none
        | some (code, rem) => some (l :: code, rem)

/-- Panic-aware `parseSegmentsFuel`. -/
def parseSegmentsFuelChecked (lango : Option Language) :
    Nat → List Str → Option (List segment)
  | _, [] => some []
  | 0, _ => some []
  | fuel + 1, l :: rest =>
    match lango with
    | some lang =>
      match (if !lang.blockStart.isEmpty then tryBlockCommentChecked lang (l :: rest)
          else some none) with
      | none => none
      | some (some (seg, rem)) =>
        match parseSegmentsFuelChecked lango fuel rem with
        | none => none
        | some segs => some (seg :: segs)
      | some none =>
        match (if !lang.lineMarkers.isEmpty then tryLineCommentBlock lang (l :: rest)
            else none) with
        | some (seg, rem) =>
          match parseSegmentsFuelChecked lango fuel rem with
          | none => none
          | some segs => some (seg :: segs)
        | none =>
          match takeCodeChecked lango rest with
          | none => none
          | some p =>
            match parseSegmentsFuelChecked lango fuel p.2 with
            | none => none
            | some segs =>
              some ({ typ := .code, lines := l :: p.1, indent := [],
                      marker := [] } :: segs)
    | none =>
      match takeCodeChecked lango rest with
      | none => none
      | some p =>
        match parseSegmentsFuelChecked lango fuel p.2 with
        | none => none
        | some segs =>
          some ({ typ := .code, lines := l :: p.1, indent := [],
                  marker := [] } :: segs)

/-- Panic-aware `parseSegments`. -/
def parseSegmentsChecked (lango : Option Language) (ls : List Str) :
    Option (List segment) :=
  parseSegmentsFuelChecked lango ls.length ls

/-- Panic-aware inner block loop of `renderDocList`. -/
def renderDocItemBlocksChecked (firstP contP bareMarker : Str) (col t : Int) :
    List DocBlock → Bool → Option (List Str)
  | [], _ => some []
  | b :: rest, isFirstBlock =>
    let sep : List Str := if isFirstBlock then [] else [bareMarker]
    let rendered : Option (List Str) :=
      match b with
      | .para ts =>
        if isFirstBlock then wrapTextChecked (docInlineText ts) firstP contP col t
        else wrapTextChecked (docInlineText ts) contP contP col t
      | _ => some []
    match rendered with
    | none => none
    | some r =>
      match renderDocItemBlocksChecked firstP contP bareMarker col t rest false with
      | none => none
      | some rs => some (sep ++ r ++ rs)

/-- Panic-aware item loop of `renderDocList`. -/
def renderDocListGoChecked (fbw : Bool) (pre bareMarker : Str) (col t : Int) :
    List (Str × List DocBlock) → Bool → Option (List Str)
  | [], _ => some []
  | (number, content) :: rest, isFirstItem =>
    let sep : List Str := if !isFirstItem && fbw then [bareMarker] else []
    let bullet := if !number.isEmpty then number ++ ". ".toList else "- ".toList
    let firstP := pre ++ "  ".toList ++ bullet
    let contP := pre ++ "  ".toList ++ List.replicate bullet.length ' '
    match renderDocItemBlocksChecked firstP contP bareMarker col t content true with
    | none => none
    | some r =>
      match renderDocListGoChecked fbw pre bareMarker col t rest false with
      | none => none
      | some rs => some (sep ++ r ++ rs)

/-- Panic-aware block loop of `rewrapGoDocComment`. -/
def renderDocBlocksChecked (pre bareMarker : Str) (col t : Int) :
    List DocBlock → Option DocBlock → Option (List Str)
  | [], _ => some []
  | b :: rest, prev =>
    let sep : List Str :=
      match prev with
      | none => []
      | some pb => if docSepNeeded b pb then [bareMarker] else []
    let rendered : Option (List Str) :=
      match b with
      | .para ts => wrapTextChecked (docInlineText ts) pre pre col t
      | .codeBlock text =>
        some ((splitLines (trimRightNL text)).map fun line =>
          if line.isEmpty then bareMarker else bareMarker ++ '\t' :: line)
      | .heading ts => some [pre ++ "# ".toList ++ docInlineText ts]
      | .list _ fbw items => renderDocListGoChecked fbw pre bareMarker col t items true
    match rendered with
    | none => none
    | some r =>
      match renderDocBlocksChecked pre bareMarker col t rest (some b) with
      | none => none
      | some rs => some (sep ++ r ++ rs)

/-- Panic-aware `rewrapGoDocComment`. -/
def rewrapGoDocCommentChecked (P : Parsers) (textLines : List Str) (indent : Str)
    (col t : Int) : Option (List Str) :=
  let pre := indent ++ "// ".toList
  let bareMarker := indent ++ "//".toList
  let leadingBlanks := countLeadingBlanks textLines
  let trailingBlanks := countLeadingBlanks (textLines.drop leadingBlanks).reverse
  let docText := joinLines textLines
  let doc := P.goParse docText
  if doc.isEmpty then some (List.replicate (leadingBlanks + trailingBlanks) bareMarker)
  else
    match renderDocBlocksChecked pre bareMarker col t doc none with
    | none => none
    | some r =>
      some (List.replicate leadingBlanks bareMarker ++ r ++
        List.replicate trailingBlanks bareMarker)

/-- Panic-aware `flush` of `rewrapLineComments`. -/
def rlcFlushChecked (P : Parsers) (lang : Language) (seg : segment) (col t : Int)
    (pending : List (Str × Str)) : Option (List Str) :=
  if pending.isEmpty then some []
  else if lang.name = "go".toList && trimSpace seg.marker = "//".toList then
    let textLines := pending.map fun pr =>
      let stripped := trimLeftWsTab pr.1
      if ("// ".toList).isPrefixOf stripped then stripped.drop 3
      else if ("//\t".toList).isPrefixOf stripped then stripped.drop 2
      else []
    rewrapGoDocCommentChecked P textLines seg.indent col t
  else
    let textLines := pending.map (fun pr => pr.2)
    let joined := joinLines textLines
    let pre := seg.indent ++ seg.marker
    wrapTextChecked joined pre pre col t

/-- Panic-aware main loop of `rewrapLineComments`. -/
def rlcGoChecked (P : Parsers) (lang : Language) (seg : segment) (col t : Int) :
    List (Str × Str) → List (Str × Str) → Option (List Str)
  | pending, [] => rlcFlushChecked P lang seg col t pending
  | pending, (raw, content) :: rest =>
    if isDecorationLine content then
      match rlcFlushChecked P lang seg col t pending with
      | none => none
      | some flushed =>
        match rlcGoChecked P lang seg col t [] rest with
        | none => none
        | some rs =>
          some (flushed ++ ((seg.indent ++ seg.marker ++ content) :: rs))
    else rlcGoChecked P lang seg col t (pending ++ [(raw, content)]) rest

/-- Panic-aware `rewrapLineComments`. -/
def rewrapLineCommentsChecked (P : Parsers) (seg : segment) (lang : Language)
    (col t : Int) : Option (List Str) :=
  let lines := seg.lines.map fun line =>
    let stripped := trimLeftWsTab line
    if seg.marker.length ≤ stripped.length then (line, stripped.drop seg.marker.length)
    else (line, ([] : Str))
  rlcGoChecked P lang seg col t [] lines

/-- Panic-aware `rewrapBlockComment`: Go indexes `lang.BlockStart[0]` and
`lang.BlockEnd[0]` for any multi-line block segment. -/
def rewrapBlockCommentChecked (seg : segment) (lang : Language) (col t : Int) :
    Option (List Str) :=
  match seg.lines with
  | [] => some []
  | [l] => some [l]
  | _ =>
    match lang.blockStart.head? with
    | none => none
    | some startMk =>
      match lang.blockEnd.head? with
      | none => none
      | some endMk =>
        let textLines := blockContent startMk endMk seg.lines true
        let blockP := if lang.blockPre.isEmpty then " * ".toList else lang.blockPre
        let innerPre := seg.indent ++ blockP
        let joined := joinLines textLines
        match wrapTextChecked joined innerPre innerPre col t with
        | none => none
        | some wrapped =>
          some ((seg.indent ++ startMk) :: (wrapped ++ [seg.indent ++ ' ' :: endMk]))

/-- Panic-aware `wrapPlainText`. -/
def wrapPlainTextChecked (lines : List Str) (col t : Int) : Option Str :=
  let joined := joinLines lines
  match wrapTextChecked joined [] [] col t with
  | none => none
  | some wrapped =>
    let result := joinLines wrapped
    some (if !lines.isEmpty && lines.getLast? = some [] && !(endsWithNL result) then
      result ++ ['\n']
    else result)

/-- Panic-aware output-assembly loop of `processMarkdown`: Go's slice
`lines[p.start:p.end]` panics when a paragraph range is out of bounds. -/
def mdGoChecked (lines : List Str) (col t : Int) :
    List (Nat × Nat) → Nat → Option (List Str)
  | [], i => some (lines.drop i)
  | (s, e) :: ps, i =>
    if s ≤ e && e ≤ lines.length then
      let before := (lines.drop i).take (s - i)
      let paraLines := (lines.drop s).take (e - s)
      match wrapTextChecked (joinLines paraLines) [] [] col t with
      | none => none
      | some wrapped =>
        match mdGoChecked lines col t ps e with
        | none => none
        | some rest => some (before ++ wrapped ++ rest)
    else none

/-- Panic-aware `processMarkdown`. -/
def processMarkdownChecked (P : Parsers) (src : Str) (col t : Int) : Option Str :=
  let normalized := normalizeNewlines src
  let lines := splitLines normalized
  let ranges := P.mdParas normalized
  match mdGoChecked lines col t ranges 0 with
  | none => none
  | some out =>
    let result := joinLines out
    some (if !normalized.isEmpty && normalized.getLast? = some '\n' &&
        !(endsWithNL result) then
      result ++ ['\n']
    else result)

/-- Panic-aware segment dispatch of `Source`. -/
def renderSegmentChecked (P : Parsers) (lang : Language) (col t : Int)
    (seg : segment) : Option (List Str) :=
  match seg.typ with
  | .code => some seg.lines
  | .comment => rewrapLineCommentsChecked P seg lang col t
  | .block => rewrapBlockCommentChecked seg lang col t

/-- Panic-aware rendering of a segment list. -/
def renderSegmentsChecked (P : Parsers) (lang : Language) (col t : Int) :
    List segment → Option (List Str)
  | [] => some []
  | seg :: rest =>
    match renderSegmentChecked P lang col t seg with
    | none => none
    | some r =>
      match renderSegmentsChecked P lang col t rest with
      | none => none
      | some rs => some (r ++ rs)

/-- Panic-aware `Source`: `none` exactly when the Go code would panic at
runtime. -/
def SourceChecked (P : Parsers) (src : Str) (lango : Option Language)
    (col t : Int) : Option Str :=
  let text := normalizeNewlines src
  let lines := splitLines text
  match lango with
  | none => wrapPlainTextChecked lines col t
  | some lang =>
    if lang.name = "markdown".toList then processMarkdownChecked P src col t
    else
      match parseSegmentsChecked lango lines with
      | none => none
      | some segs =>
        match renderSegmentsChecked P lang col t segs with
        | none => none
        | some out =>
          let result := joinLines out
          some (if !src.isEmpty && src.getLast? = some '\n' && !(endsWithNL result) then
            result ++ ['\n']
          else result)

theorem displayWidthAuxChecked_eq (t : Int) (ht : t ≠ 0) :
    ∀ (s : Str) (col : Int),
      displayWidthAuxChecked t s col = some (displayWidthAux t s col) := by
  intro s
  induction s with
  | nil => intro col; rfl
  | cons c rest ih =>
    intro col
    simp only [displayWidthAuxChecked, displayWidthAux]
    by_cases hc : c = '\t'
    · rw [if_pos hc, if_pos hc, if_neg ht]
      exact ih _
    · rw [if_neg hc, if_neg hc]
      exact ih _

theorem displayWidthChecked_eq (t : Int) (ht : t ≠ 0) (s : Str) :
    displayWidthChecked s t = some (displayWidth s t) :=
  displayWidthAuxChecked_eq t ht s 0

theorem wrapParagraphGoChecked_eq (contPre : Str) (col t : Int) (ht : t ≠ 0) :
    ∀ (ws lines : List Str) (line : Str) (lw : Int) (cp : Str) (avail : Int),
      wrapParagraphGoChecked contPre col t ws lines line lw cp avail =
        some (wrapParagraphGo contPre col t ws lines line lw cp avail) := by
  intro ws
  induction ws with
  | nil => intro lines line lw cp avail; rfl
  | cons w ws ih =>
    intro lines line lw cp avail
    simp only [wrapParagraphGoChecked, wrapParagraphGo,
      displayWidthChecked_eq t ht]
    by_cases hline : line.isEmpty = true
    · rw [if_pos hline, if_pos hline]
      exact ih _ _ _ _ _
    · rw [if_neg hline, if_neg hline]
      by_cases hfit : lw + 1 + displayWidth w t > avail
      · rw [if_pos hfit, if_pos hfit]
        exact ih _ _ _ _ _
      · rw [if_neg hfit, if_neg hfit]
        exact ih _ _ _ _ _

theorem wrapParagraphChecked_eq (text firstPre contPre : Str) (col t : Int)
    (ht : t ≠ 0) (isFirst : Bool) :
    wrapParagraphChecked text firstPre contPre col t isFirst =
      some (wrapParagraph text firstPre contPre col t isFirst) := by
  simp only [wrapParagraphChecked, wrapParagraph]
  by_cases hf : (fields text).isEmpty = true
  · rw [if_pos hf, if_pos hf]
  · rw [if_neg hf, if_neg hf]
    simp only [displayWidthChecked_eq t ht]
    exact wrapParagraphGoChecked_eq contPre col t ht _ _ _ _ _ _

theorem wrapTextRestChecked_eq (firstPre contPre : Str) (col t : Int)
    (ht : t ≠ 0) :
    ∀ (ps : List Str),
      wrapTextRestChecked firstPre contPre col t ps =
        some (ps.flatMap fun para =>
          trimRightSp contPre :: wrapParagraph para firstPre contPre col t false) := by
  intro ps
  induction ps with
  | nil => rfl
  | cons para ps ih =>
    simp only [wrapTextRestChecked, wrapParagraphChecked_eq _ _ _ _ _ ht, ih,
      List.flatMap_cons]
    rfl

theorem wrapTextChecked_eq (text firstPre contPre : Str) (col t : Int)
    (ht : t ≠ 0) :
    wrapTextChecked text firstPre contPre col t =
      some (wrapText text firstPre contPre col t) := by
  simp only [wrapTextChecked, wrapText]
  by_cases he : text.isEmpty = true
  · rw [if_pos he, if_pos he]
  · rw [if_neg he, if_neg he]
    cases hps : splitParagraphs text with
    | nil => rfl
    | cons p ps =>
      simp only [wrapParagraphChecked_eq _ _ _ _ _ ht,
        wrapTextRestChecked_eq _ _ _ _ ht]

theorem tryBlockCommentChecked_eq (lang : Language)
    (hwf : lang.blockStart ≠ [] → lang.blockEnd ≠ []) (ls : List Str) :
    tryBlockCommentChecked lang ls = some (tryBlockComment lang ls) := by
  match ls with
  | [] => rfl
  | l :: rest =>
    simp only [tryBlockCommentChecked, tryBlockComment]
    cases hm : findMarker lang.blockStart (trimLeftWsTab l) with
    | none => rfl
    | some startMk =>
      simp only
      by_cases he : startMk.isEmpty = true
      · rw [if_pos he, if_pos he]
      · rw [if_neg he, if_neg he]
        have hbs : lang.blockStart ≠ [] := findMarker_markers_ne_nil hm
        have hbe : lang.blockEnd ≠ [] := hwf hbs
        cases hbe2 : lang.blockEnd with
        | nil => exact absurd hbe2 hbe
        | cons e es =>
          simp only [List.head?, List.headD]
          cases hs : blockScan e (l :: rest) with
          | none => rfl
          | some p => cases p with | mk covered rem => rfl

theorem isSegStartChecked_eq (lango : Option Language)
    (hwf : ∀ lang, lango = some lang → (lang.blockStart ≠ [] → lang.blockEnd ≠ []))
    (ls : List Str) :
    isSegStartChecked lango ls = some (isSegStart lango ls) := by
  cases lango with
  | none => rfl
  | some lang =>
    simp only [isSegStartChecked, isSegStart]
    by_cases hl : (tryLineCommentBlock lang ls).isSome = true
    · rw [if_pos hl]
      simp [hl]
    · rw [if_neg hl]
      by_cases hbs : (!lang.blockStart.isEmpty) = true
      · rw [if_pos hbs]
        rw [tryBlockCommentChecked_eq lang (hwf lang rfl) ls]
        simp only [Option.some.injEq]
        simp only [Bool.not_eq_true] at hl
        rw [hl]
        simp [hbs]
      · rw [if_neg hbs]
        simp only [Bool.not_eq_true] at hl hbs
        rw [hl, hbs]
        simp

theorem takeCodeChecked_eq (lango : Option Language)
    (hwf : ∀ lang, lango = some lang → (lang.blockStart ≠ [] → lang.blockEnd ≠ [])) :
    ∀ (ls : List Str), takeCodeChecked lango ls = some (takeCode lango ls) := by
  intro ls
  induction ls with
  | nil => rfl
  | cons l rest ih =>
    simp only [takeCodeChecked, takeCode, isSegStartChecked_eq lango hwf]
    by_cases hb : isSegStart lango (l :: rest) = true
    · rw [if_pos hb, if_pos hb]
    · rw [if_neg hb, if_neg hb]
      rw [ih]

theorem parseSegmentsFuelChecked_eq (lango : Option Language)
    (hwf : ∀ lang, lango = some lang → (lang.blockStart ≠ [] → lang.blockEnd ≠ [])) :
    ∀ (fuel : Nat) (ls : List Str),
      parseSegmentsFuelChecked lango fuel ls =
        some (parseSegmentsFuel lango fuel ls) := by
  intro fuel
  induction fuel with
  | zero =>
    intro ls
    match ls with
    | [] => rfl
    | l :: rest => rfl
  | succ fuel ih =>
    intro ls
    match ls with
    | [] => rfl
    | l :: rest =>
      simp only [parseSegmentsFuelChecked, parseSegmentsFuel]
      cases lango with
      | some lang =>
        simp only
        have hblk : (if !lang.blockStart.isEmpty then tryBlockCommentChecked lang (l :: rest)
            else some none) =
            some (if !lang.blockStart.isEmpty then tryBlockComment lang (l :: rest)
              else none) := by
          by_cases hbs : (!lang.blockStart.isEmpty) = true
          · rw [if_pos hbs, if_pos hbs]
            exact tryBlockCommentChecked_eq lang (hwf lang rfl) (l :: rest)
          · rw [if_neg hbs, if_neg hbs]
        rw [hblk]
        cases hb : (if !lang.blockStart.isEmpty then tryBlockComment lang (l :: rest)
            else none) with
        | some p =>
          cases p with
          | mk seg rem =>
            simp only [ih]
        | none =>
          simp only
          cases hl : (if !lang.lineMarkers.isEmpty then tryLineCommentBlock lang (l :: rest)
              else none) with
          | some p =>
            cases p with
            | mk seg rem => simp only [ih]
          | none =>
            simp only [takeCodeChecked_eq (some lang) hwf, ih]
      | none =>
        simp only [takeCodeChecked_eq none hwf, ih]

theorem parseSegmentsChecked_eq (lango : Option Language)
    (hwf : ∀ lang, lango = some lang → (lang.blockStart ≠ [] → lang.blockEnd ≠ []))
    (ls : List Str) :
    parseSegmentsChecked lango ls = some (parseSegments lango ls) :=
  parseSegmentsFuelChecked_eq lango hwf ls.length ls

theorem renderDocItemBlocksChecked_eq (firstP contP bareMarker : Str)
    (col t : Int) (ht : t ≠ 0) :
    ∀ (bs : List DocBlock) (isFirstBlock : Bool),
      renderDocItemBlocksChecked firstP contP bareMarker col t bs isFirstBlock =
        some (renderDocItemBlocks firstP contP bareMarker col t bs isFirstBlock) := by
  intro bs
  induction bs with
  | nil => intro isFirstBlock; rfl
  | cons b rest ih =>
    intro isFirstBlock
    cases b with
    | para ts =>
      by_cases hf : isFirstBlock = true
      · simp [renderDocItemBlocksChecked, renderDocItemBlocks, hf,
          wrapTextChecked_eq _ _ _ _ _ ht, ih]
      · simp [renderDocItemBlocksChecked, renderDocItemBlocks, hf,
          wrapTextChecked_eq _ _ _ _ _ ht, ih]
    | codeBlock text => simp [renderDocItemBlocksChecked, renderDocItemBlocks, ih]
    | heading ts => simp [renderDocItemBlocksChecked, renderDocItemBlocks, ih]
    | list fbb fbw items => simp [renderDocItemBlocksChecked, renderDocItemBlocks, ih]

theorem renderDocListGoChecked_eq (fbw : Bool) (pre bareMarker : Str)
    (col t : Int) (ht : t ≠ 0) :
    ∀ (items : List (Str × List DocBlock)) (isFirstItem : Bool),
      renderDocListGoChecked fbw pre bareMarker col t items isFirstItem =
        some (renderDocListGo fbw pre bareMarker col t items isFirstItem) := by
  intro items
  induction items with
  | nil => intro isFirstItem; rfl
  | cons item rest ih =>
    intro isFirstItem
    cases item with
    | mk number content =>
      simp [renderDocListGoChecked, renderDocListGo,
        renderDocItemBlocksChecked_eq _ _ _ _ _ ht, ih]

theorem renderDocBlocksChecked_eq (pre bareMarker : Str) (col t : Int)
    (ht : t ≠ 0) :
    ∀ (bs : List DocBlock) (prev : Option DocBlock),
      renderDocBlocksChecked pre bareMarker col t bs prev =
        some (renderDocBlocks pre bareMarker col t bs prev) := by
  intro bs
  induction bs with
  | nil => intro prev; rfl
  | cons b rest ih =>
    intro prev
    cases b with
    | para ts =>
      simp [renderDocBlocksChecked, renderDocBlocks,
        wrapTextChecked_eq _ _ _ _ _ ht, ih]
    | codeBlock text => simp [renderDocBlocksChecked, renderDocBlocks, ih]
    | heading ts => simp [renderDocBlocksChecked, renderDocBlocks, ih]
    | list fbb fbw items =>
      simp [renderDocBlocksChecked, renderDocBlocks,
        renderDocListGoChecked_eq _ _ _ _ _ ht, ih]

theorem rewrapGoDocCommentChecked_eq (P : Parsers) (textLines : List Str)
    (indent : Str) (col t : Int) (ht : t ≠ 0) :
    rewrapGoDocCommentChecked P textLines indent col t =
      some (rewrapGoDocComment P textLines indent col t) := by
  simp only [rewrapGoDocCommentChecked, rewrapGoDocComment]
  by_cases hd : (P.goParse (joinLines textLines)).isEmpty = true
  · rw [if_pos hd, if_pos hd]
  · rw [if_neg hd, if_neg hd]
    simp only [renderDocBlocksChecked_eq _ _ _ _ ht]

theorem rlcFlushChecked_eq (P : Parsers) (lang : Language) (seg : segment)
    (col t : Int) (ht : t ≠ 0) (pending : List (Str × Str)) :
    rlcFlushChecked P lang seg col t pending =
      some (rlcFlush P lang seg col t pending) := by
  simp only [rlcFlushChecked, rlcFlush]
  by_cases hp : pending.isEmpty = true
  · rw [if_pos hp, if_pos hp]
  · rw [if_neg hp, if_neg hp]
    by_cases hgo : (lang.name = "go".toList && trimSpace seg.marker = "//".toList) = true
    · rw [if_pos hgo, if_pos hgo]
      exact rewrapGoDocCommentChecked_eq P _ _ col t ht
    · rw [if_neg hgo, if_neg hgo]
      exact wrapTextChecked_eq _ _ _ col t ht

theorem rlcGoChecked_eq (P : Parsers) (lang : Language) (seg : segment)
    (col t : Int) (ht : t ≠ 0) :
    ∀ (rest pending : List (Str × Str)),
      rlcGoChecked P lang seg col t pending rest =
        some (rlcGo P lang seg col t pending rest) := by
  intro rest
  induction rest with
  | nil => intro pending; exact rlcFlushChecked_eq P lang seg col t ht pending
  | cons pr rest ih =>
    intro pending
    cases pr with
    | mk raw content =>
      simp only [rlcGoChecked, rlcGo]
      by_cases hdec : isDecorationLine content = true
      · rw [if_pos hdec, if_pos hdec]
        simp only [rlcFlushChecked_eq P lang seg col t ht, ih]
      · rw [if_neg hdec, if_neg hdec]
        exact ih _

theorem rewrapLineCommentsChecked_eq (P : Parsers) (seg : segment)
    (lang : Language) (col t : Int) (ht : t ≠ 0) :
    rewrapLineCommentsChecked P seg lang col t =
      some (rewrapLineComments P seg lang col t) := by
  simp only [rewrapLineCommentsChecked, rewrapLineComments]
  exact rlcGoChecked_eq P lang seg col t ht _ _

theorem rewrapBlockCommentChecked_eq (seg : segment) (lang : Language)
    (col t : Int) (ht : t ≠ 0) (hbs : lang.blockStart ≠ [])
    (hbe : lang.blockEnd ≠ []) :
    rewrapBlockCommentChecked seg lang col t =
      some (rewrapBlockComment seg lang col t) := by
  cases hbs2 : lang.blockStart with
  | nil => exact absurd hbs2 hbs
  | cons s ss =>
    cases hbe2 : lang.blockEnd with
    | nil => exact absurd hbe2 hbe
    | cons e es =>
      simp only [rewrapBlockCommentChecked, rewrapBlockComment, hbs2, hbe2,
        List.head?, List.headD]
      match seg.lines with
      | [] => rfl
      | [l] => rfl
      | l1 :: l2 :: rest =>
        simp only [wrapTextChecked_eq _ _ _ col t ht]

theorem block_seg_blockStart_ne (lang : Language) (ls : List Str)
    (seg : segment) (hseg : seg ∈ parseSegments (some lang) ls)
    (htyp : seg.typ = segmentType.block) : lang.blockStart ≠ [] := by
  have main : ∀ (n : Nat) (ls : List Str), ls.length ≤ n →
      ∀ seg ∈ parseSegments (some lang) ls, seg.typ = segmentType.block →
        lang.blockStart ≠ [] := by
    intro n
    induction n with
    | zero =>
      intro ls h seg hseg2
      match ls with
      | [] => simp [parseSegments, parseSegmentsFuel] at hseg2
      | l :: rest => simp at h
    | succ n ih =>
      intro ls h seg hseg2 htyp2
      match ls with
      | [] => simp [parseSegments, parseSegmentsFuel] at hseg2
      | x :: rest =>
        cases hb : (if !lang.blockStart.isEmpty then tryBlockComment lang (x :: rest) else none) with
        | some p =>
          cases p with
          | mk seg2 rem =>
            intro hnil
            rw [hnil] at hb
            simp at hb
        | none =>
          cases hlc : (if !lang.lineMarkers.isEmpty then tryLineCommentBlock lang (x :: rest) else none) with
          | some p =>
            cases p with
            | mk seg2 rem =>
              rw [parseSegments_line_eq lang x rest seg2 rem hb hlc] at hseg2
              have hl2 : tryLineCommentBlock lang (x :: rest) = some (seg2, rem) := by
                by_cases hx : (!lang.lineMarkers.isEmpty) = true
                · simpa [hx] using hlc
                · simp [hx] at hlc
              rcases List.mem_cons.mp hseg2 with rfl | hseg3
              · exfalso
                simp only [tryLineCommentBlock] at hl2
                cases hm : matchLineComment x lang with
                | none => rw [hm] at hl2; exact absurd hl2 (by simp)
                | some q =>
                  cases q with
                  | mk indent marker =>
                    rw [hm] at hl2
                    simp only at hl2
                    cases hrun : extendLineRun lang indent (trimRightSp marker) marker (x :: rest) with
                    | mk run p2 =>
                      cases p2 with
                      | mk finalMk rem2 =>
                        rw [hrun] at hl2
                        simp only [Option.some.injEq, Prod.mk.injEq] at hl2
                        rw [← hl2.1] at htyp2
                        simp at htyp2
              · have hlt : rem.length < (x :: rest).length :=
                  append_ne_nil_length_lt (tryLineCommentBlock_append _ _ _ _ hl2)
                    (tryLineCommentBlock_nonempty _ _ _ _ hl2)
                simp only [List.length_cons] at h hlt
                exact ih rem (by omega) seg hseg3 htyp2
          | none =>
            rw [parseSegments_code_eq lang x rest hb hlc] at hseg2
            rcases List.mem_cons.mp hseg2 with rfl | hseg3
            · simp at htyp2
            · have hle := takeCode_rem_length (some lang) rest
              simp only [List.length_cons] at h
              exact ih _ (by omega) seg hseg3 htyp2
  exact main ls.length ls le_rfl seg hseg htyp

theorem renderSegmentChecked_eq (P : Parsers) (lang : Language) (col t : Int)
    (ht : t ≠ 0) (seg : segment)
    (hblk : seg.typ = segmentType.block → lang.blockStart ≠ [] ∧ lang.blockEnd ≠ []) :
    renderSegmentChecked P lang col t seg = some (renderSegment P lang col t seg) := by
  simp only [renderSegmentChecked, renderSegment]
  cases htyp : seg.typ with
  | code => rfl
  | comment => exact rewrapLineCommentsChecked_eq P seg lang col t ht
  | block =>
    exact rewrapBlockCommentChecked_eq seg lang col t ht (hblk htyp).1 (hblk htyp).2

theorem renderSegmentsChecked_eq (P : Parsers) (lang : Language) (col t : Int)
    (ht : t ≠ 0) :
    ∀ (segs : List segment),
      (∀ seg ∈ segs, seg.typ = segmentType.block →
        lang.blockStart ≠ [] ∧ lang.blockEnd ≠ []) →
      renderSegmentsChecked P lang col t segs =
        some (segs.flatMap (renderSegment P lang col t)) := by
  intro segs
  induction segs with
  | nil => intro _; rfl
  | cons seg rest ih =>
    intro hblk
    simp only [renderSegmentsChecked, List.flatMap_cons]
    rw [renderSegmentChecked_eq P lang col t ht seg
      (hblk seg (List.mem_cons_self seg rest))]
    rw [ih (fun s hs => hblk s (List.mem_cons.mpr (Or.inr hs)))]

theorem mdGoChecked_eq (lines : List Str) (col t : Int) (ht : t ≠ 0) :
    ∀ (ranges : List (Nat × Nat)) (i : Nat),
      (∀ r ∈ ranges, r.1 ≤ r.2 ∧ r.2 ≤ lines.length) →
      mdGoChecked lines col t ranges i = some (mdGo lines col t ranges i) := by
  intro ranges
  induction ranges with
  | nil => intro i _; rfl
  | cons r ps ih =>
    intro i hr
    cases r with
    | mk s e =>
      have hre := hr (s, e) (List.mem_cons_self _ ps)
      simp only [mdGoChecked, mdGo]
      rw [if_pos (by
        simp only [Bool.and_eq_true, decide_eq_true_eq]
        exact ⟨hre.1, hre.2⟩)]
      rw [wrapTextChecked_eq _ _ _ col t ht]
      rw [ih e (fun x hx => hr x (List.mem_cons.mpr (Or.inr hx)))]

theorem processMarkdownChecked_eq (P : Parsers) (src : Str) (col t : Int)
    (ht : t ≠ 0)
    (hmd : ∀ r ∈ P.mdParas (normalizeNewlines src),
      r.1 ≤ r.2 ∧ r.2 ≤ (splitLines (normalizeNewlines src)).length) :
    processMarkdownChecked P src col t = some (processMarkdown P src col t) := by
  simp only [processMarkdownChecked, processMarkdown]
  rw [mdGoChecked_eq _ col t ht _ 0 hmd]

theorem wrapPlainTextChecked_eq (lines : List Str) (col t : Int) (ht : t ≠ 0) :
    wrapPlainTextChecked lines col t = some (wrapPlainText lines col t) := by
  simp only [wrapPlainTextChecked, wrapPlainText]
  rw [wrapTextChecked_eq _ _ _ col t ht]

/-- C2 (amended): `Source` never fails for any tab width other than 0 —
for every input, every column width, every language descriptor whose
`BlockEnd` list is non-empty whenever its `BlockStart` list is (true of
every registry language), and (for the Markdown path) in-bounds paragraph
ranges from the structural parser, the panic-aware `SourceChecked` agrees
with the total `Source`.  At tab width 0, tab expansion divides by zero
(see the counterexample). -/
theorem source_total_for_nonzero_tab (P : Parsers) (src : Str)
    (lango : Option Language) (col t : Int) (ht : t ≠ 0)
    (hwf : ∀ lang, lango = some lang → (lang.blockStart ≠ [] → lang.blockEnd ≠ []))
    (hmd : ∀ s, ∀ r ∈ P.mdParas s, r.1 ≤ r.2 ∧ r.2 ≤ (splitLines s).length) :
    SourceChecked P src lango col t = some (Source P src lango col t) := by
  simp only [SourceChecked, Source]
  cases lango with
  | none => exact wrapPlainTextChecked_eq _ col t ht
  | some lang =>
    simp only
    by_cases hmdname : lang.name = "markdown".toList
    · rw [if_pos hmdname, if_pos hmdname]
      exact processMarkdownChecked_eq P src col t ht (hmd _)
    · rw [if_neg hmdname, if_neg hmdname]
      have hsegs := renderSegmentsChecked_eq P lang col t ht
        (parseSegments (some lang) (splitLines (normalizeNewlines src)))
        (fun seg hseg htyp =>
          ⟨block_seg_blockStart_ne lang _ seg hseg htyp,
           hwf lang rfl (block_seg_blockStart_ne lang _ seg hseg htyp)⟩)
      simp only [parseSegmentsChecked_eq (some lang) hwf, hsegs]

/-- C2 witness: the amended totality theorem instantiated at the Python
registry language on input `"# a"`, column 80, tab width 4. -/
theorem source_total_for_nonzero_tab_witness :
    SourceChecked defaultParsers "# a".toList (some pythonLang) 80 4 =
      some (Source defaultParsers "# a".toList (some pythonLang) 80 4) :=
  source_total_for_nonzero_tab defaultParsers "# a".toList (some pythonLang) 80 4
    (by decide)
    (by intro lang h; cases h; intro hbs; exact absurd rfl hbs)
    (by intro s r hr; simp [defaultParsers] at hr)

/-- C2 counterexample: `Source` is not total for every integer tab width.
On the Python input `"\t# a"` (a tab-indented comment) at tab width 0, the
wrap prefix `"\t# "` reaches `displayWidth`, whose tab expansion computes
`col % tabWidth` with `tabWidth = 0` — a division by zero, i.e. a runtime
panic, modelled as `none`. -/
theorem source_panics_on_zero_tab_width :
    SourceChecked defaultParsers "\t# a".toList (some pythonLang) 80 0 = none ∧
    displayWidthChecked "\t# ".toList 0 = none := by
  refine ⟨by decide, by decide⟩

end Rewrap
